import Mathlib

/-!
Shallow embedding of the treap-rs repository (a randomized treap map).

`src/node.rs` defines `Node<K, V>` with `key`, `value`, `priority : f64`
and optional boxed `left`/`right` children, together with the recursive
algorithms `get`, `insert_or_replace`, `insert`, `remove`, `rotate_down`,
`right_rotate` and `left_rotate`.  `src/map.rs` defines `TreapMap<K, V>`
holding an `Option<Box<Node>>` root and a `size : usize` counter, and the
four iterators.

The embedding below models `Option<Box<Node<K,V>>>` as the inductive
`Tree K V` (`leaf` for `None`), and priorities as `Nat` (the code only
ever compares priorities with `<` and `>=`; the random `f64` samples are
totally ordered, so any linearly ordered carrier is faithful).  Since the
random generator lives outside `node.rs` (the map draws one fresh sample
per `insert` call and passes it to `Node::new`), map-level `insert` takes
the freshly drawn priority as an explicit argument.
-/

namespace TreapRs

/-- A possibly absent treap node: models `Option<Box<Node<K, V>>>` from
`src/node.rs`.  `node key value priority left right` is `Some` of a
`Node` with those fields; `leaf` is `None`. -/
inductive Tree (K V : Type) where
  | leaf : Tree K V
  | node : K → V → Nat → Tree K V → Tree K V → Tree K V
deriving DecidableEq, Repr

namespace Tree

variable {K V : Type}

/-- Number of nodes of the tree (used as a termination measure). -/
def size : Tree K V → Nat
  | leaf => 0
  | node _ _ _ l r => l.size + r.size + 1

/-- Priority of the root node, with `0` for an absent tree (priorities
are naturals, so `0` acts as a neutral lower bound in heap checks). -/
def priOf : Tree K V → Nat
  | leaf => 0
  | node _ _ p _ _ => p

/-- The `left` field of the root node (the absent tree for a leaf). -/
def left : Tree K V → Tree K V
  | leaf => leaf
  | node _ _ _ l _ => l

/-- The `right` field of the root node (the absent tree for a leaf). -/
def right : Tree K V → Tree K V
  | leaf => leaf
  | node _ _ _ _ r => r

/-- `Node::get` from `src/node.rs` (together with the `None => None` root
case of `TreapMap::get` in `src/map.rs`): three-way compare the sought
key with the node key and descend. -/
def get [LinearOrder K] : Tree K V → K → Option V
  | leaf, _ => none
  | node k v _ l r, key =>
    if key < k then l.get key
    else if k < key then r.get key
    else some v

/-- Observation helper (not an operation of the source): the full entry
stored at a key, following exactly the descent of `Node::get`, returning
the value together with the stored priority. -/
def getEntry [LinearOrder K] : Tree K V → K → Option (V × Nat)
  | leaf, _ => none
  | node k v p l r, key =>
    if key < k then l.getEntry key
    else if k < key then r.getEntry key
    else some (v, p)

/-- `Node::right_rotate` from `src/node.rs`: if the left child `p` is
present, `p` becomes the subtree root, `p`'s right subtree becomes the
old root's left subtree, and the old root becomes `p`'s right child;
with no left child the rotation is a no-op. -/
def right_rotate : Tree K V → Tree K V
  | node k v p (node lk lv lp ll lr) r => node lk lv lp ll (node k v p lr r)
  | t => t

/-- `Node::left_rotate` from `src/node.rs`: mirror image of
`right_rotate`, operating on the right child. -/
def left_rotate : Tree K V → Tree K V
  | node k v p l (node rk rv rp rl rr) => node rk rv rp (node k v p l rl) rr
  | t => t

/-- `Node::is_heap_property_violated` from `src/node.rs`: true iff the
subtree is present and its root priority exceeds `selfPri`. -/
def is_heap_property_violated (selfPri : Nat) : Tree K V → Bool
  | leaf => false
  | node _ _ p _ _ => decide (selfPri < p)

/-- `Node::insert_or_replace` together with `Node::insert` from
`src/node.rs`.  The new node is given by its key `nk`, value `nv` and
freshly sampled priority `np` (in the source it arrives as a childless
`Node`).  Returns the new subtree and the previous value, if any.
On an exact key match the value is replaced and the stored priority is
raised to the new sample if the new sample is larger; otherwise the
insertion recurses into the matching child slot and afterwards performs
the rotation that repairs a heap violation at this node. -/
def insert_or_replace [LinearOrder K] :
    Tree K V → K → V → Nat → Tree K V × Option V
  | leaf, nk, nv, np => (node nk nv np leaf leaf, none)
  | node k v p l r, nk, nv, np =>
    if nk < k then
      let res := l.insert_or_replace nk nv np
      let t2 := node k v p res.1 r
      (if is_heap_property_violated p res.1 then t2.right_rotate else t2, res.2)
    else if k < nk then
      let res := r.insert_or_replace nk nv np
      let t2 := node k v p l res.1
      (if is_heap_property_violated p res.1 then t2.left_rotate else t2, res.2)
    else
      (node k nv (if p < np then np else p) l r, some v)

/-- `Node::rotate_down` from `src/node.rs`: a childless node is removed
(returning its value); otherwise the node is rotated toward its
higher-priority child (`RotateRight` — i.e. `right_rotate` — when the
left child is present and the right is absent or has priority ≤ the
left's, `RotateLeft` otherwise) and `rotate_down` recurses into the
child slot now holding the node.  The rotations are unfolded into the
match arms; the equations relating each arm to `right_rotate` /
`left_rotate` are proved below. -/
def rotate_down : Tree K V → Tree K V × Option V
  | leaf => (leaf, none)
  | node _ v _ leaf leaf => (leaf, some v)
  | node k v p (node lk lv lp ll lr) leaf =>
    let res := rotate_down (node k v p lr leaf)
    (node lk lv lp ll res.1, res.2)
  | node k v p leaf (node rk rv rp rl rr) =>
    let res := rotate_down (node k v p leaf rl)
    (node rk rv rp res.1 rr, res.2)
  | node k v p (node lk lv lp ll lr) (node rk rv rp rl rr) =>
    if rp ≤ lp then
      let res := rotate_down (node k v p lr (node rk rv rp rl rr))
      (node lk lv lp ll res.1, res.2)
    else
      let res := rotate_down (node k v p (node lk lv lp ll lr) rl)
      (node rk rv rp res.1 rr, res.2)
termination_by t => t.size
decreasing_by
  all_goals simp [Tree.size]; omega

/-- `Node::remove` from `src/node.rs`: descend by key comparison; on a
missing subtree return `None`, on an exact match rotate the node down
and detach it. -/
def remove [LinearOrder K] : Tree K V → K → Tree K V × Option V
  | leaf, _ => (leaf, none)
  | node k v p l r, key =>
    if key < k then
      let res := l.remove key
      (node k v p res.1 r, res.2)
    else if k < key then
      let res := r.remove key
      (node k v p l res.1, res.2)
    else
      rotate_down (node k v p l r)

/-- In-order list of the entries (key, value, priority) of the tree.
This is the specification-side contents function used to state the
claims; the recursive in-order walk referenced by the spec. -/
def inorder : Tree K V → List (K × V × Nat)
  | leaf => []
  | node k v p l r => l.inorder ++ (k, v, p) :: r.inorder

/-- The keys of the tree, in in-order. -/
def keysOf (t : Tree K V) : List K := t.inorder.map (fun e => e.1)

/-- The (key, value) pairs of the tree, in in-order. -/
def pairsOf (t : Tree K V) : List (K × V) :=
  t.inorder.map (fun e => (e.1, e.2.1))

/-- Spec §3 invariant 1, on a tree: every key in the left subtree of a
node is less than the node's key and every key in the right subtree is
greater, recursively. -/
def isBST [LinearOrder K] : Tree K V → Bool
  | leaf => true
  | node k _ _ l r =>
    l.inorder.all (fun e => decide (e.1 < k)) &&
    r.inorder.all (fun e => decide (k < e.1)) &&
    l.isBST && r.isBST

/-- Spec §3 invariant 2, on a tree: every node's priority is ≥ the
priority of each present child, recursively. -/
def isHeap : Tree K V → Bool
  | leaf => true
  | node _ _ p l r =>
    decide (l.priOf ≤ p) && decide (r.priOf ≤ p) && l.isHeap && r.isHeap

end Tree

/-- `TreapMap<K, V>` from `src/map.rs`: the optional root node and the
size counter. -/
structure TreapMap (K V : Type) where
  root : Tree K V
  size : Nat
deriving DecidableEq, Repr

namespace TreapMap

variable {K V : Type}

/-- `TreapMap::new` from `src/map.rs`. -/
def new : TreapMap K V := ⟨Tree.leaf, 0⟩

/-- `TreapMap::clear` from `src/map.rs`: drop the root, reset the size. -/
def clear (_m : TreapMap K V) : TreapMap K V := ⟨Tree.leaf, 0⟩

/-- `TreapMap::get` from `src/map.rs`. -/
def get [LinearOrder K] (m : TreapMap K V) (key : K) : Option V :=
  m.root.get key

/-- `TreapMap::contains_key` from `src/map.rs`. -/
def contains_key [LinearOrder K] (m : TreapMap K V) (key : K) : Bool :=
  (m.get key).isSome

/-- `TreapMap::insert` from `src/map.rs`: build a fresh node from the
key, the value and the freshly drawn priority sample `np` (drawn by the
map's random generator in the source) and insert it at the root slot;
the size counter is incremented exactly when no previous value was
present. -/
def insert [LinearOrder K] (m : TreapMap K V) (key : K) (value : V)
    (np : Nat) : TreapMap K V × Option V :=
  let res := m.root.insert_or_replace key value np
  (⟨res.1, if res.2.isNone then m.size + 1 else m.size⟩, res.2)

/-- `TreapMap::remove` from `src/map.rs`: remove at the root slot; the
size counter is decremented exactly when a value was returned. -/
def remove [LinearOrder K] (m : TreapMap K V) (key : K) :
    TreapMap K V × Option V :=
  let res := m.root.remove key
  (⟨res.1, if res.2.isSome then m.size - 1 else m.size⟩, res.2)

/-- `TreapMap::extend` from `src/map.rs`: repeated `insert`, discarding
the returned previous values.  Each pair carries the priority sample the
map's generator would produce for its `insert` call. -/
def extend [LinearOrder K] (m : TreapMap K V) (l : List (K × V × Nat)) :
    TreapMap K V :=
  l.foldl (fun acc e => (acc.insert e.1 e.2.1 e.2.2).1) m

/-- `TreapMap::from_iter` from `src/map.rs`: `extend` starting from a
new empty map. -/
def from_iter [LinearOrder K] (l : List (K × V × Nat)) : TreapMap K V :=
  TreapMap.new.extend l

end TreapMap

/-- The `Traversal` enum of `src/map.rs`: a tagged work item of the
ordered iterator.  `Left t` means "traverse the left subtree of `t`
before emitting the value at `t`"; `Right t` means "emit the value at
`t` and continue with its right subtree". -/
inductive Traversal (T : Type) where
  | Left : T → Traversal T
  | Right : T → Traversal T

/-- Weight of a work item, a termination measure for draining the
ordered iterator's stack. -/
def travWeight {K V : Type} : Traversal (Tree K V) → Nat
  | .Left t => 3 * t.size + 1
  | .Right .leaf => 1
  | .Right (.node _ _ _ _ r) => 3 * r.size + 2

/-- Push a `Left` work item for a subtree onto the stack when the
subtree is present (the source pushes only present children). -/
def pushLeft {K V : Type} (t : Tree K V) (s : List (Traversal (Tree K V))) :
    List (Traversal (Tree K V)) :=
  match t with
  | .leaf => s
  | .node k v p l r => .Left (.node k v p l r) :: s

/-- `OrderedIter::next` from `src/map.rs`, iterated to exhaustion: pop a
work item; on `Left node` push `Right node` and then a `Left` item for
the present left child; on `Right node` push a `Left` item for the
present right child and yield the node's key/value.  (The source stack
holds `&Node` references, so `leaf` entries never occur; they are
skipped here.) -/
def orderedDrain {K V : Type} :
    List (Traversal (Tree K V)) → List (K × V)
  | [] => []
  | .Left .leaf :: rest => orderedDrain rest
  | .Left (.node k v p l r) :: rest =>
    orderedDrain (pushLeft l (.Right (.node k v p l r) :: rest))
  | .Right .leaf :: rest => orderedDrain rest
  | .Right (.node k v _ _ r) :: rest =>
    (k, v) :: orderedDrain (pushLeft r rest)
termination_by s => (s.map travWeight).sum
decreasing_by
  · simp [travWeight]
  · cases l <;> simp [travWeight, pushLeft, Tree.size] <;> omega
  · simp [travWeight]
  · cases r <;> simp [travWeight, pushLeft, Tree.size]

/-- Push a node onto the unordered work list when the subtree is
present (the source pushes only present children). -/
def pushNode {K V : Type} (t : Tree K V) (s : List (Tree K V)) :
    List (Tree K V) :=
  match t with
  | .leaf => s
  | .node k v p l r => .node k v p l r :: s

/-- `Iter::next`, `IterMut::next` and `IntoIter::next` from
`src/map.rs`, iterated to exhaustion.  All three unordered iterators use
the very same algorithm (they differ only in borrow flavor, which the
pure embedding erases): pop a node from the work list, push its present
left child and then its present right child, and yield the node's
key/value.  (The source work list holds nodes, so `leaf` entries never
occur; they are skipped here.) -/
def unorderedDrain {K V : Type} : List (Tree K V) → List (K × V)
  | [] => []
  | .leaf :: rest => unorderedDrain rest
  | .node k v _ l r :: rest =>
    (k, v) :: unorderedDrain (pushNode r (pushNode l rest))
termination_by s => (s.map (fun t => 2 * t.size + 1)).sum
decreasing_by
  · simp
  · cases l <;> cases r <;> simp [pushNode, Tree.size] <;> omega

namespace TreapMap

variable {K V : Type}

/-- `TreapMap::iter_ordered` from `src/map.rs`: the initial stack is a
single `Left root` item when the root is present. -/
def iter_ordered (m : TreapMap K V) : List (Traversal (Tree K V)) :=
  match m.root with
  | .leaf => []
  | .node k v p l r => [.Left (.node k v p l r)]

/-- All (key, value) pairs yielded by the ordered iterator, in yield
order. -/
def orderedEntries (m : TreapMap K V) : List (K × V) :=
  orderedDrain m.iter_ordered

/-- The initial work list of the three unordered iterators
(`IntoIterator` impls in `src/map.rs`): the root node when present. -/
def iterInit (m : TreapMap K V) : List (Tree K V) :=
  match m.root with
  | .leaf => []
  | .node k v p l r => [.node k v p l r]

/-- All (key, value) pairs yielded by each of the three unordered
iterators, in yield order. -/
def unorderedEntries (m : TreapMap K V) : List (K × V) :=
  unorderedDrain m.iterInit

end TreapMap

/-- A mutating public map operation, for stating "for every sequence of
operations" claims.  `insert` carries the priority sample the map's
random generator produces for that call. -/
inductive Op (K V : Type) where
  | insert : K → V → Nat → Op K V
  | remove : K → Op K V
  | clear : Op K V

/-- Apply one public mutating operation to a map. -/
def applyOp [LinearOrder K] (m : TreapMap K V) : Op K V → TreapMap K V
  | .insert k v np => (m.insert k v np).1
  | .remove k => (m.remove k).1
  | .clear => m.clear

/-- Run a sequence of public mutating operations from the empty map. -/
def runOps [LinearOrder K] (ops : List (Op K V)) : TreapMap K V :=
  ops.foldl applyOp TreapMap.new

/-- Well-formedness of a map: the two treap invariants of spec §3 on
the root tree, together with the size invariant. -/
def TreapMap.WF [LinearOrder K] {V : Type} (m : TreapMap K V) : Prop :=
  m.root.isBST = true ∧ m.root.isHeap = true ∧ m.size = m.root.inorder.length

/-- Modelled from the spec: the state of a map built by
`TreapMap::new_with_rng` (the construction variant taking a
caller-provided random-number generator).  `new_with_rng` itself is
missing from `src/` — `src/map.rs` calls `Node::new(key, value)`
without the priority argument that `src/node.rs` requires and carries
no rng field, while `src/benches/lib.rs` calls
`TreapMap::new_with_rng(rng)`.  The generator is modelled as a step
function `gen` on generator states producing the next priority sample
and the successor state; `insert` draws one fresh sample per call and
hands it to the underlying map insertion. -/
structure TreapMapRng (K V S : Type) where
  map : TreapMap K V
  gen : S → Nat × S
  state : S

/-- Modelled from the spec: `TreapMap::new_with_rng` — an empty map
holding the caller-provided generator. -/
def new_with_rng {K V S : Type} (gen : S → Nat × S) (seed : S) :
    TreapMapRng K V S :=
  ⟨TreapMap.new, gen, seed⟩

/-- Modelled from the spec: `insert` on an rng-carrying map — draw the
next priority sample from the injected generator, advance the generator
state, and insert with that sample. -/
def TreapMapRng.insert {K V S : Type} [LinearOrder K]
    (m : TreapMapRng K V S) (key : K) (value : V) :
    TreapMapRng K V S × Option V :=
  let draw := m.gen m.state
  let res := m.map.insert key value draw.1
  (⟨res.1, m.gen, draw.2⟩, res.2)

/-- The (key, value) pairs contributed by one work item of the ordered
iterator: a `Left` item contributes its whole subtree in order, a
`Right` item contributes the node's own pair followed by its right
subtree in order.  (Specification-side helper for the drain lemmas.) -/
def travEntries {K V : Type} : Traversal (Tree K V) → List (K × V)
  | .Left t => t.pairsOf
  | .Right .leaf => []
  | .Right (.node k v _ _ r) => (k, v) :: r.pairsOf

/-! ## Basic lemmas about the tree model -/

namespace Tree

variable {K V : Type}

theorem inorder_eq_nil_iff (t : Tree K V) : t.inorder = [] ↔ t = leaf := by
  cases t <;> simp [inorder]

theorem isBST_node_iff [LinearOrder K] {k : K} {v : V} {p : Nat}
    {l r : Tree K V} :
    (node k v p l r).isBST = true ↔
      (∀ e ∈ l.inorder, e.1 < k) ∧ (∀ e ∈ r.inorder, k < e.1) ∧
        l.isBST = true ∧ r.isBST = true := by
  simp [isBST, List.all_eq_true, and_assoc]

theorem isHeap_node_iff {k : K} {v : V} {p : Nat} {l r : Tree K V} :
    (node k v p l r).isHeap = true ↔
      l.priOf ≤ p ∧ r.priOf ≤ p ∧ l.isHeap = true ∧ r.isHeap = true := by
  simp [isHeap, and_assoc]

theorem right_rotate_inorder (t : Tree K V) :
    t.right_rotate.inorder = t.inorder := by
  cases t with
  | leaf => rfl
  | node k v p l r =>
    cases l with
    | leaf => rfl
    | node lk lv lp ll lr => simp [right_rotate, inorder]

theorem left_rotate_inorder (t : Tree K V) :
    t.left_rotate.inorder = t.inorder := by
  cases t with
  | leaf => rfl
  | node k v p l r =>
    cases r with
    | leaf => rfl
    | node rk rv rp rl rr => simp [left_rotate, inorder]

theorem get_eq_getEntry [LinearOrder K] (t : Tree K V) (key : K) :
    t.get key = (t.getEntry key).map (fun e => e.1) := by
  induction t with
  | leaf => rfl
  | node k v p l r ihl ihr =>
    by_cases h1 : key < k
    · simp [get, getEntry, h1, ihl]
    · by_cases h2 : k < key <;> simp [get, getEntry, h1, h2, ihr]

theorem getEntry_eq_none_of_lt [LinearOrder K] {t : Tree K V} {key : K}
    (h : ∀ e ∈ t.inorder, key < e.1) : t.getEntry key = none := by
  induction t with
  | leaf => rfl
  | node k v p l r ihl ihr =>
    have hk : key < k := h (k, v, p) (by simp [inorder])
    simp only [getEntry, if_pos hk]
    exact ihl (fun e he => h e (by simp [inorder]; exact Or.inl he))

theorem getEntry_eq_none_of_gt [LinearOrder K] {t : Tree K V} {key : K}
    (h : ∀ e ∈ t.inorder, e.1 < key) : t.getEntry key = none := by
  induction t with
  | leaf => rfl
  | node k v p l r ihl ihr =>
    have hk : k < key := h (k, v, p) (by simp [inorder])
    simp only [getEntry, if_neg (asymm hk), if_pos hk]
    exact ihr (fun e he => h e (by simp [inorder]; exact Or.inr (Or.inr he)))

theorem priOf_le_of_mem_of_isHeap {t : Tree K V} (ht : t.isHeap = true)
    {e : K × V × Nat} (he : e ∈ t.inorder) : e.2.2 ≤ t.priOf := by
  induction t with
  | leaf => simp [inorder] at he
  | node k v p l r ihl ihr =>
    rw [isHeap_node_iff] at ht
    simp only [inorder, List.mem_append, List.mem_cons] at he
    rcases he with he | he | he
    · exact le_trans (ihl ht.2.2.1 he) ht.1
    · subst he; exact le_refl _
    · exact le_trans (ihr ht.2.2.2 he) ht.2.1

theorem keys_pairwise_of_isBST [LinearOrder K] {t : Tree K V}
    (ht : t.isBST = true) : t.keysOf.Pairwise (· < ·) := by
  induction t with
  | leaf => simp [keysOf, inorder]
  | node k v p l r ihl ihr =>
    rw [isBST_node_iff] at ht
    simp only [keysOf, inorder, List.map_append, List.map_cons]
    rw [List.pairwise_append]
    refine ⟨ihl ht.2.2.1, ?_, ?_⟩
    · rw [List.pairwise_cons]
      refine ⟨?_, ihr ht.2.2.2⟩
      intro x hx
      simp only [List.mem_map] at hx
      obtain ⟨e, he, hex⟩ := hx
      exact hex ▸ ht.2.1 e he
    · intro x hx y hy
      simp only [List.mem_map] at hx
      obtain ⟨e, he, hex⟩ := hx
      simp only [List.mem_cons, List.mem_map] at hy
      rcases hy with rfl | ⟨f, hf, hfy⟩
      · exact hex ▸ ht.1 e he
      · exact hex ▸ hfy ▸ lt_trans (ht.1 e he) (ht.2.1 f hf)

theorem keys_nodup_of_isBST [LinearOrder K] {t : Tree K V}
    (ht : t.isBST = true) : t.keysOf.Nodup :=
  (keys_pairwise_of_isBST ht).imp ne_of_lt

/-- On a BST, `getEntry` is exactly association-list lookup in the
in-order entry list: the stored entry is found purely from the
contents. -/
theorem getEntry_eq_find [LinearOrder K] {t : Tree K V}
    (ht : t.isBST = true) (q : K) :
    t.getEntry q =
      (t.inorder.find? (fun e => decide (e.1 = q))).map (fun e => e.2) := by
  induction t with
  | leaf => rfl
  | node k v p l r ihl ihr =>
    rw [isBST_node_iff] at ht
    simp only [inorder, List.find?_append]
    rcases lt_trichotomy q k with h | h | h
    · have hr : ((k, v, p) :: r.inorder).find? (fun e => decide (e.1 = q)) =
          none := by
        rw [List.find?_eq_none]
        intro e he
        simp only [List.mem_cons] at he
        rcases he with rfl | he
        · simp; exact fun hc => absurd (hc ▸ h) (lt_irrefl _)
        · simp; exact fun hc => absurd (hc ▸ ht.2.1 e he) (asymm h)
      simp only [getEntry, if_pos h, hr, ihl ht.2.2.1]
      cases hl : l.inorder.find? (fun e => decide (e.1 = q)) <;> simp
    · subst h
      have hl : l.inorder.find? (fun e => decide (e.1 = q)) = none := by
        rw [List.find?_eq_none]
        intro e he
        simp
        exact fun hc => absurd (hc ▸ ht.1 e he) (lt_irrefl _)
      simp [getEntry, hl]
    · have hl : l.inorder.find? (fun e => decide (e.1 = q)) = none := by
        rw [List.find?_eq_none]
        intro e he
        simp
        exact fun hc => absurd (hc ▸ ht.1 e he) (asymm h)
      have hk : ¬ k = q := fun hc => absurd (hc ▸ h) (lt_irrefl _)
      simp only [getEntry, if_neg (asymm h), if_pos h, hl, Option.none_or,
        ihr ht.2.2.2]
      simp [List.find?_cons, hk]

/-- Two BSTs with the same in-order entry list agree on `getEntry`
everywhere.  In particular the rotations, which preserve the in-order
list exactly, preserve every lookup. -/
theorem getEntry_congr [LinearOrder K] {t₁ t₂ : Tree K V}
    (h₁ : t₁.isBST = true) (h₂ : t₂.isBST = true)
    (h : t₁.inorder = t₂.inorder) (q : K) :
    t₁.getEntry q = t₂.getEntry q := by
  rw [getEntry_eq_find h₁, getEntry_eq_find h₂, h]

theorem keysOf_node [LinearOrder K] (k : K) (v : V) (p : Nat)
    (l r : Tree K V) :
    (node k v p l r).keysOf = l.keysOf ++ k :: r.keysOf := by
  simp [keysOf, inorder]

theorem violated_iff {p : Nat} {t : Tree K V} :
    is_heap_property_violated p t = true ↔ p < t.priOf := by
  cases t <;> simp [is_heap_property_violated, priOf]

theorem right_rotate_isBST [LinearOrder K] {t : Tree K V}
    (ht : t.isBST = true) : t.right_rotate.isBST = true := by
  cases t with
  | leaf => exact ht
  | node k v p l r =>
    cases l with
    | leaf => exact ht
    | node lk lv lp ll lr =>
      rw [isBST_node_iff] at ht
      obtain ⟨h1, h2, h3, h4⟩ := ht
      rw [isBST_node_iff] at h3
      obtain ⟨h3a, h3b, h3c, h3d⟩ := h3
      have hlk : lk < k := h1 (lk, lv, lp) (by simp [inorder])
      rw [right_rotate, isBST_node_iff]
      refine ⟨h3a, ?_, h3c, ?_⟩
      · intro e he
        simp only [inorder, List.mem_append, List.mem_cons] at he
        rcases he with he | he | he
        · exact h3b e he
        · subst he; exact hlk
        · exact lt_trans hlk (h2 e he)
      · rw [isBST_node_iff]
        refine ⟨?_, h2, h3d, h4⟩
        intro e he
        exact h1 e (by simp [inorder]; exact Or.inr (Or.inr he))

theorem left_rotate_isBST [LinearOrder K] {t : Tree K V}
    (ht : t.isBST = true) : t.left_rotate.isBST = true := by
  cases t with
  | leaf => exact ht
  | node k v p l r =>
    cases r with
    | leaf => exact ht
    | node rk rv rp rl rr =>
      rw [isBST_node_iff] at ht
      obtain ⟨h1, h2, h3, h4⟩ := ht
      rw [isBST_node_iff] at h4
      obtain ⟨h4a, h4b, h4c, h4d⟩ := h4
      have hrk : k < rk := h2 (rk, rv, rp) (by simp [inorder])
      rw [left_rotate, isBST_node_iff]
      refine ⟨?_, h4b, ?_, h4d⟩
      · intro e he
        simp only [inorder, List.mem_append, List.mem_cons] at he
        rcases he with he | he | he
        · exact lt_trans (h1 e he) hrk
        · subst he; exact hrk
        · exact h4a e he
      · rw [isBST_node_iff]
        refine ⟨h1, ?_, h3, h4c⟩
        intro e he
        exact h2 e (by simp [inorder]; exact Or.inl he)

/-- The second component returned by `insert_or_replace` is exactly the
previous value at the inserted key. -/
theorem insert_snd [LinearOrder K] (t : Tree K V) (k : K) (v : V)
    (np : Nat) : (t.insert_or_replace k v np).2 = t.get k := by
  induction t with
  | leaf => rfl
  | node k0 v0 p0 l r ihl ihr =>
    rcases lt_trichotomy k k0 with h | h | h
    · simp [insert_or_replace, get, h, ihl]
    · subst h; simp [insert_or_replace, get, lt_irrefl]
    · simp [insert_or_replace, get, h, asymm h, ihr]

theorem right_rotate_keysOf [LinearOrder K] (t : Tree K V) :
    t.right_rotate.keysOf = t.keysOf := by
  simp [keysOf, right_rotate_inorder]

theorem left_rotate_keysOf [LinearOrder K] (t : Tree K V) :
    t.left_rotate.keysOf = t.keysOf := by
  simp [keysOf, left_rotate_inorder]

/-- Inserting a key that is absent adds exactly the new entry to the
contents, up to permutation. -/
theorem insert_inorder_of_get_none [LinearOrder K] {t : Tree K V}
    {k : K} (v : V) (np : Nat) (hg : t.get k = none) :
    ((t.insert_or_replace k v np).1.inorder).Perm ((k, v, np) :: t.inorder) := by
  induction t with
  | leaf => simp [insert_or_replace, inorder]
  | node k0 v0 p0 l r ihl ihr =>
    rcases lt_trichotomy k k0 with h | h | h
    · rw [get, if_pos h] at hg
      simp only [insert_or_replace, if_pos h]
      have hperm := ihl hg
      by_cases hv : is_heap_property_violated p0 (l.insert_or_replace k v np).1 = true
      · rw [if_pos hv, right_rotate_inorder]
        simp only [inorder]
        exact hperm.append_right _
      · rw [if_neg hv]
        simp only [inorder]
        exact hperm.append_right _
    · subst h; simp [get, lt_irrefl] at hg
    · rw [get, if_neg (asymm h), if_pos h] at hg
      simp only [insert_or_replace, if_neg (asymm h), if_pos h]
      have hperm := ihr hg
      have hmain :
          (l.inorder ++ (k0, v0, p0) :: (r.insert_or_replace k v np).1.inorder).Perm
            ((k, v, np) :: (l.inorder ++ (k0, v0, p0) :: r.inorder)) :=
        ((((hperm.cons (k0, v0, p0)).trans
            (List.Perm.swap (k, v, np) (k0, v0, p0) r.inorder)).append_left
          l.inorder).trans List.perm_middle)
      by_cases hv : is_heap_property_violated p0 (r.insert_or_replace k v np).1 = true
      · rw [if_pos hv, left_rotate_inorder]
        simp only [inorder]
        exact hmain
      · rw [if_neg hv]
        simp only [inorder]
        exact hmain

/-- Inserting a key that is present leaves the key list unchanged. -/
theorem insert_keysOf_of_get_some [LinearOrder K] {t : Tree K V}
    {k : K} {v0 : V} (v : V) (np : Nat) (hg : t.get k = some v0) :
    (t.insert_or_replace k v np).1.keysOf = t.keysOf := by
  induction t with
  | leaf => simp [get] at hg
  | node k0 v0' p0 l r ihl ihr =>
    rcases lt_trichotomy k k0 with h | h | h
    · rw [get, if_pos h] at hg
      simp only [insert_or_replace, if_pos h]
      by_cases hv : is_heap_property_violated p0 (l.insert_or_replace k v np).1 = true
      · rw [if_pos hv, right_rotate_keysOf, keysOf_node, keysOf_node, ihl hg]
      · rw [if_neg hv, keysOf_node, keysOf_node, ihl hg]
    · subst h
      simp only [insert_or_replace, if_neg (lt_irrefl k), keysOf_node]
    · rw [get, if_neg (asymm h), if_pos h] at hg
      simp only [insert_or_replace, if_neg (asymm h), if_pos h]
      by_cases hv : is_heap_property_violated p0 (r.insert_or_replace k v np).1 = true
      · rw [if_pos hv, left_rotate_keysOf, keysOf_node, keysOf_node, ihr hg]
      · rw [if_neg hv, keysOf_node, keysOf_node, ihr hg]

/-- Every key of the tree after an insertion is either the inserted key
or one of the previous keys. -/
theorem insert_keys_subset [LinearOrder K] (t : Tree K V) (k : K) (v : V)
    (np : Nat) :
    ∀ e ∈ (t.insert_or_replace k v np).1.inorder, e.1 = k ∨ e.1 ∈ t.keysOf := by
  intro e he
  cases hg : t.get k with
  | none =>
    have hmem := ((insert_inorder_of_get_none v np hg).mem_iff).mp he
    rcases List.mem_cons.mp hmem with rfl | hmem
    · exact Or.inl rfl
    · exact Or.inr (List.mem_map_of_mem _ hmem)
  | some v0 =>
    have : e.1 ∈ (t.insert_or_replace k v np).1.keysOf :=
      List.mem_map_of_mem _ he
    rw [insert_keysOf_of_get_some v np hg] at this
    exact Or.inr this

/-- Any strict bound satisfied by all previous keys and by the inserted
key is satisfied by all keys after the insertion. -/
theorem insert_keys_bound [LinearOrder K] {t : Tree K V} {k : K} {v : V}
    {np : Nat} {P : K → Prop} (hall : ∀ e ∈ t.inorder, P e.1) (hk : P k) :
    ∀ e ∈ (t.insert_or_replace k v np).1.inorder, P e.1 := by
  intro e he
  rcases insert_keys_subset t k v np e he with h | h
  · exact h ▸ hk
  · obtain ⟨f, hf, hfe⟩ := List.mem_map.mp h
    exact hfe ▸ hall f hf

/-- Insertion preserves the BST invariant. -/
theorem insert_isBST [LinearOrder K] {t : Tree K V} (ht : t.isBST = true)
    (k : K) (v : V) (np : Nat) :
    (t.insert_or_replace k v np).1.isBST = true := by
  induction t with
  | leaf => simp [insert_or_replace, isBST, inorder]
  | node k0 v0 p0 l r ihl ihr =>
    rw [isBST_node_iff] at ht
    obtain ⟨h1, h2, h3, h4⟩ := ht
    rcases lt_trichotomy k k0 with h | h | h
    · simp only [insert_or_replace, if_pos h]
      have hbst2 : (node k0 v0 p0 (l.insert_or_replace k v np).1 r).isBST = true := by
        rw [isBST_node_iff]
        exact ⟨insert_keys_bound (P := fun x => x < k0) h1 h, h2, ihl h3, h4⟩
      by_cases hv : is_heap_property_violated p0 (l.insert_or_replace k v np).1 = true
      · rw [if_pos hv]; exact right_rotate_isBST hbst2
      · rw [if_neg hv]; exact hbst2
    · subst h
      simp only [insert_or_replace, if_neg (lt_irrefl k)]
      rw [isBST_node_iff]
      exact ⟨h1, h2, h3, h4⟩
    · simp only [insert_or_replace, if_neg (asymm h), if_pos h]
      have hbst2 : (node k0 v0 p0 l (r.insert_or_replace k v np).1).isBST = true := by
        rw [isBST_node_iff]
        exact ⟨h1, insert_keys_bound (P := fun x => k0 < x) h2 h, h3, ihr h4⟩
      by_cases hv : is_heap_property_violated p0 (r.insert_or_replace k v np).1 = true
      · rw [if_pos hv]; exact left_rotate_isBST hbst2
      · rw [if_neg hv]; exact hbst2

/-- Strengthened heap-preservation invariant for insertion: the result
is a heap, its root priority is bounded by the maximum of the old root
priority and the new sample, and whenever the root priority grew, both
children of the new root have priorities bounded by the old root
priority. -/
theorem insert_heap_aux [LinearOrder K] {t : Tree K V}
    (ht : t.isHeap = true) (k : K) (v : V) (np : Nat) :
    (t.insert_or_replace k v np).1.isHeap = true ∧
    (t.insert_or_replace k v np).1.priOf ≤ max t.priOf np ∧
    (t.priOf < (t.insert_or_replace k v np).1.priOf →
      (t.insert_or_replace k v np).1.left.priOf ≤ t.priOf ∧
      (t.insert_or_replace k v np).1.right.priOf ≤ t.priOf) := by
  induction t with
  | leaf =>
    refine ⟨by simp [insert_or_replace, isHeap, priOf], ?_, ?_⟩
    · simp [insert_or_replace, priOf]
    · intro h
      simp [insert_or_replace, left, right, priOf]
  | node k0 v0 p0 l r ihl ihr =>
    rw [isHeap_node_iff] at ht
    obtain ⟨hlp, hrp, hlh, hrh⟩ := ht
    rcases lt_trichotomy k k0 with h | h | h
    · obtain ⟨ih1, ih2, ih3⟩ := ihl hlh
      simp only [insert_or_replace, if_pos h]
      by_cases hv : is_heap_property_violated p0 (l.insert_or_replace k v np).1 = true
      · rw [if_pos hv]
        have hpv : p0 < (l.insert_or_replace k v np).1.priOf := violated_iff.mp hv
        cases hins : (l.insert_or_replace k v np).1 with
        | leaf => rw [hins] at hpv; simp [priOf] at hpv
        | node lk lv lp ll lr =>
          rw [hins] at hpv ih1 ih2 ih3
          simp only [priOf] at hpv ih2
          rw [isHeap_node_iff] at ih1
          obtain ⟨ihll, ihlr, ihllh, ihlrh⟩ := ih1
          have hlpri : l.priOf < lp := lt_of_le_of_lt hlp hpv
          obtain ⟨hbl, hbr⟩ := ih3 (by simp only [priOf]; exact hlpri)
          simp only [left, right, priOf] at hbl hbr
          refine ⟨?_, ?_, ?_⟩
          · rw [right_rotate]
            rw [isHeap_node_iff]
            refine ⟨ihll, by simp [priOf]; omega, ihllh, ?_⟩
            rw [isHeap_node_iff]
            exact ⟨le_trans hbr hlp, hrp, ihlrh, hrh⟩
          · rw [right_rotate]
            simp only [priOf] at *
            exact le_trans ih2 (max_le_max hlp (le_refl np))
          · intro hgrow
            rw [right_rotate] at hgrow ⊢
            simp only [priOf, left, right] at *
            exact ⟨le_trans hbl hlp, le_refl p0⟩
      · rw [if_neg hv]
        have hple : (l.insert_or_replace k v np).1.priOf ≤ p0 := by
          have := mt violated_iff.mpr hv
          omega
        refine ⟨?_, ?_, ?_⟩
        · rw [isHeap_node_iff]
          exact ⟨hple, hrp, ih1, hrh⟩
        · simp [priOf]
        · intro hgrow
          simp only [priOf] at hgrow
          omega
    · subst h
      simp only [insert_or_replace, if_neg (lt_irrefl k)]
      refine ⟨?_, ?_, ?_⟩
      · rw [isHeap_node_iff]
        by_cases hnp : p0 < np
        · rw [if_pos hnp]
          exact ⟨le_trans hlp (le_of_lt hnp), le_trans hrp (le_of_lt hnp),
            hlh, hrh⟩
        · rw [if_neg hnp]
          exact ⟨hlp, hrp, hlh, hrh⟩
      · simp only [priOf]
        by_cases hnp : p0 < np
        · rw [if_pos hnp]; exact le_max_right _ _
        · rw [if_neg hnp]; exact le_max_left _ _
      · intro hgrow
        simp only [priOf, left, right] at *
        exact ⟨hlp, hrp⟩
    · obtain ⟨ih1, ih2, ih3⟩ := ihr hrh
      simp only [insert_or_replace, if_neg (asymm h), if_pos h]
      by_cases hv : is_heap_property_violated p0 (r.insert_or_replace k v np).1 = true
      · rw [if_pos hv]
        have hpv : p0 < (r.insert_or_replace k v np).1.priOf := violated_iff.mp hv
        cases hins : (r.insert_or_replace k v np).1 with
        | leaf => rw [hins] at hpv; simp [priOf] at hpv
        | node rk rv rp rl rr =>
          rw [hins] at hpv ih1 ih2 ih3
          simp only [priOf] at hpv ih2
          rw [isHeap_node_iff] at ih1
          obtain ⟨ihrl, ihrr, ihrlh, ihrrh⟩ := ih1
          have hrpri : r.priOf < rp := lt_of_le_of_lt hrp hpv
          obtain ⟨hbl, hbr⟩ := ih3 (by simp only [priOf]; exact hrpri)
          simp only [left, right, priOf] at hbl hbr
          refine ⟨?_, ?_, ?_⟩
          · rw [left_rotate]
            rw [isHeap_node_iff]
            refine ⟨by simp [priOf]; omega, ihrr, ?_, ihrrh⟩
            rw [isHeap_node_iff]
            exact ⟨hlp, le_trans hbl hrp, hlh, ihrlh⟩
          · rw [left_rotate]
            simp only [priOf] at *
            exact le_trans ih2 (max_le_max hrp (le_refl np))
          · intro hgrow
            rw [left_rotate] at hgrow ⊢
            simp only [priOf, left, right] at *
            exact ⟨le_refl p0, le_trans hbr hrp⟩
      · rw [if_neg hv]
        have hple : (r.insert_or_replace k v np).1.priOf ≤ p0 := by
          have := mt violated_iff.mpr hv
          omega
        refine ⟨?_, ?_, ?_⟩
        · rw [isHeap_node_iff]
          exact ⟨hlp, hple, hlh, ih1⟩
        · simp [priOf]
        · intro hgrow
          simp only [priOf] at hgrow
          omega

/-- Insertion preserves the heap invariant. -/
theorem insert_isHeap [LinearOrder K] {t : Tree K V} (ht : t.isHeap = true)
    (k : K) (v : V) (np : Nat) :
    (t.insert_or_replace k v np).1.isHeap = true :=
  (insert_heap_aux ht k v np).1

/-- Full lookup behavior of insertion on a BST: the inserted key is
afterwards mapped to the new value, with its priority raised to the new
sample exactly when the sample exceeds the stored priority (and set to
the fresh sample for a previously absent key); every other key keeps its
entry. -/
theorem getEntry_insert [LinearOrder K] {t : Tree K V} (ht : t.isBST = true)
    (k : K) (v : V) (np : Nat) (q : K) :
    (t.insert_or_replace k v np).1.getEntry q =
      if q = k then
        some (v, match t.getEntry k with
          | none => np
          | some e => if e.2 < np then np else e.2)
      else t.getEntry q := by
  induction t with
  | leaf =>
    rcases lt_trichotomy q k with h | h | h
    · simp [insert_or_replace, getEntry, h, ne_of_lt h]
    · subst h; simp [insert_or_replace, getEntry, lt_irrefl]
    · simp [insert_or_replace, getEntry, h, asymm h, ne_of_gt h]
  | node k0 v0 p0 l r ihl ihr =>
    rw [isBST_node_iff] at ht
    obtain ⟨h1, h2, h3, h4⟩ := ht
    rcases lt_trichotomy k k0 with hlt | hmid | hgt
    · simp only [insert_or_replace, if_pos hlt]
      have hbst2 :
          (node k0 v0 p0 (l.insert_or_replace k v np).1 r).isBST = true := by
        rw [isBST_node_iff]
        exact ⟨insert_keys_bound (P := fun x => x < k0) h1 hlt, h2,
          insert_isBST h3 k v np, h4⟩
      have hstep :
          (if is_heap_property_violated p0 (l.insert_or_replace k v np).1 then
              (node k0 v0 p0 (l.insert_or_replace k v np).1 r).right_rotate
            else
              node k0 v0 p0 (l.insert_or_replace k v np).1 r).getEntry q =
          (node k0 v0 p0 (l.insert_or_replace k v np).1 r).getEntry q := by
        by_cases hv :
            is_heap_property_violated p0 (l.insert_or_replace k v np).1 = true
        · rw [if_pos hv]
          exact getEntry_congr (right_rotate_isBST hbst2) hbst2
            (right_rotate_inorder _) q
        · rw [if_neg hv]
      rw [hstep]
      have hek : (node k0 v0 p0 l r).getEntry k = l.getEntry k := by
        simp [getEntry, hlt]
      rcases lt_trichotomy q k0 with hq | hq | hq
      · have heq2 : (node k0 v0 p0 l r).getEntry q = l.getEntry q := by
          simp [getEntry, hq]
        simp only [getEntry, if_pos hq]
        rw [ihl h3]
        simp [hlt]
      · subst hq
        simp [getEntry, lt_irrefl, ne_of_gt hlt]
      · simp [getEntry, asymm hq, hq, ne_of_gt (lt_trans hlt hq)]
    · subst hmid
      simp only [insert_or_replace, if_neg (lt_irrefl k)]
      rcases lt_trichotomy q k with hq | hq | hq
      · simp [getEntry, hq, ne_of_lt hq]
      · subst hq
        simp [getEntry, lt_irrefl]
      · simp [getEntry, asymm hq, hq, ne_of_gt hq]
    · simp only [insert_or_replace, if_neg (asymm hgt), if_pos hgt]
      have hbst2 :
          (node k0 v0 p0 l (r.insert_or_replace k v np).1).isBST = true := by
        rw [isBST_node_iff]
        exact ⟨h1, insert_keys_bound (P := fun x => k0 < x) h2 hgt, h3,
          insert_isBST h4 k v np⟩
      have hstep :
          (if is_heap_property_violated p0 (r.insert_or_replace k v np).1 then
              (node k0 v0 p0 l (r.insert_or_replace k v np).1).left_rotate
            else
              node k0 v0 p0 l (r.insert_or_replace k v np).1).getEntry q =
          (node k0 v0 p0 l (r.insert_or_replace k v np).1).getEntry q := by
        by_cases hv :
            is_heap_property_violated p0 (r.insert_or_replace k v np).1 = true
        · rw [if_pos hv]
          exact getEntry_congr (left_rotate_isBST hbst2) hbst2
            (left_rotate_inorder _) q
        · rw [if_neg hv]
      rw [hstep]
      have hek : (node k0 v0 p0 l r).getEntry k = r.getEntry k := by
        simp [getEntry, asymm hgt, hgt]
      rcases lt_trichotomy q k0 with hq | hq | hq
      · simp [getEntry, hq, ne_of_lt (lt_trans hq hgt)]
      · subst hq
        simp [getEntry, lt_irrefl, ne_of_lt hgt]
      · have heq2 : (node k0 v0 p0 l r).getEntry q = r.getEntry q := by
          simp [getEntry, asymm hq, hq]
        simp only [getEntry, if_neg (asymm hq), if_pos hq]
        rw [ihr h4]
        simp [asymm hgt, hgt]

/-- Rotating a node down to removal concatenates the in-order contents
of its two subtrees (dropping exactly the node's own entry). -/
theorem rotate_down_inorder (t : Tree K V) :
    (rotate_down t).1.inorder = t.left.inorder ++ t.right.inorder := by
  induction t using rotate_down.induct with
  | case1 => simp [rotate_down, inorder, left, right]
  | case2 k v p => simp [rotate_down, inorder, left, right]
  | case3 k v p lk lv lp ll lr ih =>
    simp only [rotate_down, inorder, left, right] at *
    simp [ih]
  | case4 k v p rk rv rp rl rr ih =>
    simp only [rotate_down, inorder, left, right] at *
    simp [ih]
  | case5 k v p lk lv lp ll lr rk rv rp rl rr hle ih =>
    simp only [rotate_down, if_pos hle, inorder, left, right] at *
    simp [ih]
  | case6 k v p lk lv lp ll lr rk rv rp rl rr hle ih =>
    simp only [rotate_down, if_neg hle, inorder, left, right] at *
    simp [ih]

/-- Rotating a node down to removal returns exactly the node's stored
value. -/
theorem rotate_down_snd (t : Tree K V) :
    (rotate_down t).2 =
      match t with
      | leaf => none
      | node _ v _ _ _ => some v := by
  induction t using rotate_down.induct with
  | case1 => simp [rotate_down]
  | case2 k v p => simp [rotate_down]
  | case3 k v p lk lv lp ll lr ih => simp only [rotate_down]; exact ih
  | case4 k v p rk rv rp rl rr ih => simp only [rotate_down]; exact ih
  | case5 k v p lk lv lp ll lr rk rv rp rl rr hle ih =>
    simp only [rotate_down, if_pos hle]; exact ih
  | case6 k v p lk lv lp ll lr rk rv rp rl rr hle ih =>
    simp only [rotate_down, if_neg hle]; exact ih

/-- The second component returned by `remove` is exactly the value
stored at the removed key. -/
theorem remove_snd [LinearOrder K] (t : Tree K V) (k : K) :
    (t.remove k).2 = t.get k := by
  induction t with
  | leaf => rfl
  | node k0 v0 p0 l r ihl ihr =>
    rcases lt_trichotomy k k0 with h | h | h
    · simp [remove, get, h, ihl]
    · subst h
      simp only [remove, if_neg (lt_irrefl k), get]
      rw [rotate_down_snd]
    · simp [remove, get, h, asymm h, ihr]

/-- Removing an absent key leaves the tree unchanged and returns
nothing. -/
theorem remove_of_get_none [LinearOrder K] {t : Tree K V} {k : K}
    (hg : t.get k = none) : t.remove k = (t, none) := by
  induction t with
  | leaf => rfl
  | node k0 v0 p0 l r ihl ihr =>
    rcases lt_trichotomy k k0 with h | h | h
    · rw [get, if_pos h] at hg
      simp only [remove, if_pos h, ihl hg]
    · subst h; simp [get, lt_irrefl] at hg
    · rw [get, if_neg (asymm h), if_pos h] at hg
      simp only [remove, if_neg (asymm h), if_pos h, ihr hg]

/-- On a BST, removal filters the removed key out of the in-order
contents (and leaves everything else in place). -/
theorem remove_inorder_of_isBST [LinearOrder K] {t : Tree K V}
    (ht : t.isBST = true) (k : K) :
    (t.remove k).1.inorder = t.inorder.filter (fun e => decide (e.1 ≠ k)) := by
  induction t with
  | leaf => rfl
  | node k0 v0 p0 l r ihl ihr =>
    rw [isBST_node_iff] at ht
    obtain ⟨h1, h2, h3, h4⟩ := ht
    rcases lt_trichotomy k k0 with h | h | h
    · have hkeep : r.inorder.filter (fun e => decide (e.1 ≠ k)) = r.inorder := by
        rw [List.filter_eq_self]
        intro e he
        simp
        exact ne_of_gt (lt_trans h (h2 e he))
      simp only [remove, if_pos h, inorder, List.filter_append, ihl h3,
        List.filter_cons]
      have hd : (decide ((k0, v0, p0).1 ≠ k)) = true := by
        simp; exact ne_of_gt h
      rw [hd, hkeep]
      simp
    · subst h
      have hl : l.inorder.filter (fun e => decide (e.1 ≠ k)) = l.inorder := by
        rw [List.filter_eq_self]
        intro e he
        simp
        exact ne_of_lt (h1 e he)
      have hr : r.inorder.filter (fun e => decide (e.1 ≠ k)) = r.inorder := by
        rw [List.filter_eq_self]
        intro e he
        simp
        exact ne_of_gt (h2 e he)
      simp only [remove, if_neg (lt_irrefl k), inorder, List.filter_append,
        List.filter_cons]
      rw [rotate_down_inorder]
      simp only [left, right]
      have hd : (decide ((k, v0, p0).1 ≠ k)) = false := by simp
      rw [hd, hl, hr]
      simp
    · have hkeep : l.inorder.filter (fun e => decide (e.1 ≠ k)) = l.inorder := by
        rw [List.filter_eq_self]
        intro e he
        simp
        exact ne_of_lt (lt_trans (h1 e he) h)
      simp only [remove, if_neg (asymm h), if_pos h, inorder,
        List.filter_append, ihr h4, List.filter_cons]
      have hd : (decide ((k0, v0, p0).1 ≠ k)) = true := by
        simp; exact ne_of_lt h
      rw [hd, hkeep]
      simp

/-- Rotating a node down preserves the BST invariant. -/
theorem rotate_down_isBST [LinearOrder K] {t : Tree K V}
    (ht : t.isBST = true) : (rotate_down t).1.isBST = true := by
  induction t using rotate_down.induct with
  | case1 => simp [rotate_down, isBST]
  | case2 k v p => simp [rotate_down, isBST]
  | case3 k v p lk lv lp ll lr ih =>
    rw [isBST_node_iff] at ht
    obtain ⟨h1, h2, h3, h4⟩ := ht
    rw [isBST_node_iff] at h3
    obtain ⟨h3a, h3b, h3c, h3d⟩ := h3
    have hbst2 : (node k v p lr leaf).isBST = true := by
      rw [isBST_node_iff]
      refine ⟨?_, by simp [inorder], h3d, by simp [isBST]⟩
      intro e he
      exact h1 e (by simp [inorder]; exact Or.inr (Or.inr he))
    simp only [rotate_down]
    rw [isBST_node_iff]
    refine ⟨h3a, ?_, h3c, ih hbst2⟩
    intro e he
    rw [rotate_down_inorder] at he
    simp only [left, right, inorder, List.append_nil] at he
    exact h3b e he
  | case4 k v p rk rv rp rl rr ih =>
    rw [isBST_node_iff] at ht
    obtain ⟨h1, h2, h3, h4⟩ := ht
    rw [isBST_node_iff] at h4
    obtain ⟨h4a, h4b, h4c, h4d⟩ := h4
    have hbst2 : (node k v p leaf rl).isBST = true := by
      rw [isBST_node_iff]
      refine ⟨by simp [inorder], ?_, by simp [isBST], h4c⟩
      intro e he
      exact h2 e (by simp [inorder]; exact Or.inl he)
    simp only [rotate_down]
    rw [isBST_node_iff]
    refine ⟨?_, h4b, ih hbst2, h4d⟩
    intro e he
    rw [rotate_down_inorder] at he
    simp only [left, right, inorder, List.nil_append] at he
    exact h4a e he
  | case5 k v p lk lv lp ll lr rk rv rp rl rr hle ih =>
    rw [isBST_node_iff] at ht
    obtain ⟨h1, h2, h3, h4⟩ := ht
    rw [isBST_node_iff] at h3
    obtain ⟨h3a, h3b, h3c, h3d⟩ := h3
    have hlk : lk < k := h1 (lk, lv, lp) (by simp [inorder])
    have hbst2 : (node k v p lr (node rk rv rp rl rr)).isBST = true := by
      rw [isBST_node_iff]
      refine ⟨?_, h2, h3d, h4⟩
      intro e he
      exact h1 e (by simp [inorder]; exact Or.inr (Or.inr he))
    simp only [rotate_down, if_pos hle]
    rw [isBST_node_iff]
    refine ⟨h3a, ?_, h3c, ih hbst2⟩
    intro e he
    rw [rotate_down_inorder] at he
    simp only [left, right] at he
    rcases List.mem_append.mp he with he | he
    · exact h3b e he
    · exact lt_trans hlk (h2 e he)
  | case6 k v p lk lv lp ll lr rk rv rp rl rr hle ih =>
    rw [isBST_node_iff] at ht
    obtain ⟨h1, h2, h3, h4⟩ := ht
    rw [isBST_node_iff] at h4
    obtain ⟨h4a, h4b, h4c, h4d⟩ := h4
    have hrk : k < rk := h2 (rk, rv, rp) (by simp [inorder])
    have hbst2 : (node k v p (node lk lv lp ll lr) rl).isBST = true := by
      rw [isBST_node_iff]
      refine ⟨h1, ?_, h3, h4c⟩
      intro e he
      exact h2 e (by simp [inorder]; exact Or.inl he)
    simp only [rotate_down, if_neg hle]
    rw [isBST_node_iff]
    refine ⟨?_, h4b, ih hbst2, h4d⟩
    intro e he
    rw [rotate_down_inorder] at he
    simp only [left, right] at he
    rcases List.mem_append.mp he with he | he
    · exact lt_trans (h1 e he) hrk
    · exact h4a e he

/-- Rotating a node down preserves the heap invariant, and the new root
priority is bounded by the larger of the two child priorities. -/
theorem rotate_down_heap {t : Tree K V} (ht : t.isHeap = true) :
    (rotate_down t).1.isHeap = true ∧
    (rotate_down t).1.priOf ≤ max t.left.priOf t.right.priOf := by
  induction t using rotate_down.induct with
  | case1 => simp [rotate_down, isHeap, priOf]
  | case2 k v p => simp [rotate_down, isHeap, priOf]
  | case3 k v p lk lv lp ll lr ih =>
    rw [isHeap_node_iff] at ht
    obtain ⟨hlp, hrp, hlh, hrh⟩ := ht
    rw [isHeap_node_iff] at hlh
    obtain ⟨hll, hlr, hllh, hlrh⟩ := hlh
    have hheap2 : (node k v p lr leaf).isHeap = true := by
      rw [isHeap_node_iff]
      simp only [priOf] at *
      exact ⟨le_trans hlr hlp, by simp [priOf], hlrh, by simp [isHeap]⟩
    obtain ⟨ih1, ih2⟩ := ih hheap2
    simp only [left, right, priOf] at ih2 ⊢
    constructor
    · simp only [rotate_down]
      rw [isHeap_node_iff]
      refine ⟨hll, ?_, hllh, ih1⟩
      simp only [priOf] at *
      omega
    · simp only [rotate_down, priOf]
      omega
  | case4 k v p rk rv rp rl rr ih =>
    rw [isHeap_node_iff] at ht
    obtain ⟨hlp, hrp, hlh, hrh⟩ := ht
    rw [isHeap_node_iff] at hrh
    obtain ⟨hrl, hrr, hrlh, hrrh⟩ := hrh
    have hheap2 : (node k v p leaf rl).isHeap = true := by
      rw [isHeap_node_iff]
      simp only [priOf] at *
      exact ⟨by simp [priOf], le_trans hrl hrp, by simp [isHeap], hrlh⟩
    obtain ⟨ih1, ih2⟩ := ih hheap2
    simp only [left, right, priOf] at ih2 ⊢
    constructor
    · simp only [rotate_down]
      rw [isHeap_node_iff]
      refine ⟨?_, hrr, ih1, hrrh⟩
      simp only [priOf] at *
      omega
    · simp only [rotate_down, priOf]
      omega
  | case5 k v p lk lv lp ll lr rk rv rp rl rr hle ih =>
    rw [isHeap_node_iff] at ht
    obtain ⟨hlp, hrp, hlh, hrh⟩ := ht
    rw [isHeap_node_iff] at hlh
    obtain ⟨hll, hlr, hllh, hlrh⟩ := hlh
    have hheap2 : (node k v p lr (node rk rv rp rl rr)).isHeap = true := by
      rw [isHeap_node_iff]
      simp only [priOf] at *
      exact ⟨le_trans hlr hlp, hrp, hlrh, hrh⟩
    obtain ⟨ih1, ih2⟩ := ih hheap2
    simp only [left, right, priOf] at ih2 ⊢
    constructor
    · simp only [rotate_down, if_pos hle]
      rw [isHeap_node_iff]
      refine ⟨hll, ?_, hllh, ih1⟩
      simp only [priOf] at *
      omega
    · simp only [rotate_down, if_pos hle, priOf]
      omega
  | case6 k v p lk lv lp ll lr rk rv rp rl rr hle ih =>
    rw [isHeap_node_iff] at ht
    obtain ⟨hlp, hrp, hlh, hrh⟩ := ht
    rw [isHeap_node_iff] at hrh
    obtain ⟨hrl, hrr, hrlh, hrrh⟩ := hrh
    have hheap2 : (node k v p (node lk lv lp ll lr) rl).isHeap = true := by
      rw [isHeap_node_iff]
      simp only [priOf] at *
      exact ⟨hlp, le_trans hrl hrp, hlh, hrlh⟩
    obtain ⟨ih1, ih2⟩ := ih hheap2
    simp only [left, right, priOf] at ih2 ⊢
    constructor
    · simp only [rotate_down, if_neg hle]
      rw [isHeap_node_iff]
      refine ⟨?_, hrr, ih1, hrrh⟩
      simp only [priOf] at *
      omega
    · simp only [rotate_down, if_neg hle, priOf]
      omega

/-- Removal preserves the BST invariant. -/
theorem remove_isBST [LinearOrder K] {t : Tree K V} (ht : t.isBST = true)
    (k : K) : (t.remove k).1.isBST = true := by
  induction t with
  | leaf => simp [remove, isBST]
  | node k0 v0 p0 l r ihl ihr =>
    have htn := ht
    rw [isBST_node_iff] at htn
    obtain ⟨h1, h2, h3, h4⟩ := htn
    rcases lt_trichotomy k k0 with h | h | h
    · simp only [remove, if_pos h]
      rw [isBST_node_iff]
      refine ⟨?_, h2, ihl h3, h4⟩
      intro e he
      rw [remove_inorder_of_isBST h3] at he
      exact h1 e (List.mem_of_mem_filter he)
    · subst h
      simp only [remove, if_neg (lt_irrefl k)]
      exact rotate_down_isBST ht
    · simp only [remove, if_neg (asymm h), if_pos h]
      rw [isBST_node_iff]
      refine ⟨h1, ?_, h3, ihr h4⟩
      intro e he
      rw [remove_inorder_of_isBST h4] at he
      exact h2 e (List.mem_of_mem_filter he)

/-- Removal preserves the heap invariant, and never raises the root
priority. -/
theorem remove_heap_aux [LinearOrder K] {t : Tree K V}
    (ht : t.isHeap = true) (k : K) :
    (t.remove k).1.isHeap = true ∧ (t.remove k).1.priOf ≤ t.priOf := by
  induction t with
  | leaf => simp [remove, isHeap, priOf]
  | node k0 v0 p0 l r ihl ihr =>
    have htn := ht
    rw [isHeap_node_iff] at htn
    obtain ⟨hlp, hrp, hlh, hrh⟩ := htn
    rcases lt_trichotomy k k0 with h | h | h
    · obtain ⟨ih1, ih2⟩ := ihl hlh
      simp only [remove, if_pos h]
      constructor
      · rw [isHeap_node_iff]
        exact ⟨le_trans ih2 hlp, hrp, ih1, hrh⟩
      · simp [priOf]
    · subst h
      simp only [remove, if_neg (lt_irrefl k)]
      obtain ⟨hh1, hh2⟩ := rotate_down_heap ht
      refine ⟨hh1, ?_⟩
      simp only [left, right] at hh2
      have hb : max l.priOf r.priOf ≤ (node k v0 p0 l r).priOf := by
        simp only [priOf]
        exact max_le hlp hrp
      exact le_trans hh2 hb
    · obtain ⟨ih1, ih2⟩ := ihr hrh
      simp only [remove, if_neg (asymm h), if_pos h]
      constructor
      · rw [isHeap_node_iff]
        exact ⟨hlp, le_trans ih2 hrp, hlh, ih1⟩
      · simp [priOf]

/-- Removal preserves the heap invariant. -/
theorem remove_isHeap [LinearOrder K] {t : Tree K V}
    (ht : t.isHeap = true) (k : K) : (t.remove k).1.isHeap = true :=
  (remove_heap_aux ht k).1

end Tree

/-- `find?` over a filtered list equals `find?` over the original list
when every element satisfying the sought predicate survives the
filter. -/
theorem find_filter_of_imp {A : Type} (l : List A) (p g : A → Bool)
    (h : ∀ x, p x = true → g x = true) :
    (l.filter g).find? p = l.find? p := by
  induction l with
  | nil => rfl
  | cons x xs ih =>
    by_cases hp : p x = true
    · rw [List.filter_cons, if_pos (h x hp), List.find?_cons_of_pos _ hp,
        List.find?_cons_of_pos _ hp]
    · by_cases hgx : g x = true
      · rw [List.filter_cons, if_pos hgx, List.find?_cons_of_neg _ hp,
          List.find?_cons_of_neg _ hp, ih]
      · rw [List.filter_cons, if_neg hgx, List.find?_cons_of_neg _ hp, ih]

namespace Tree

variable {K V : Type}

/-- Full lookup behavior of removal on a BST: the removed key is gone,
all other keys keep their entries. -/
theorem getEntry_remove [LinearOrder K] {t : Tree K V}
    (ht : t.isBST = true) (k q : K) :
    (t.remove k).1.getEntry q = if q = k then none else t.getEntry q := by
  rw [getEntry_eq_find (remove_isBST ht k), remove_inorder_of_isBST ht]
  by_cases hq : q = k
  · subst hq
    rw [if_pos rfl]
    have : (t.inorder.filter (fun e => decide (e.1 ≠ q))).find?
        (fun e => decide (e.1 = q)) = none := by
      rw [List.find?_eq_none]
      intro e he
      have := List.of_mem_filter he
      simp at this ⊢
      exact this
    rw [this]
    rfl
  · rw [if_neg hq, find_filter_of_imp, ← getEntry_eq_find ht]
    intro x hx
    simp at hx ⊢
    rw [hx]
    exact hq

/-- Effect of inserting an absent key on the number of stored entries:
one more entry. -/
theorem insert_inorder_length_none [LinearOrder K] {t : Tree K V} {k : K}
    (v : V) (np : Nat) (hg : t.get k = none) :
    (t.insert_or_replace k v np).1.inorder.length = t.inorder.length + 1 := by
  rw [(insert_inorder_of_get_none v np hg).length_eq]
  rfl

/-- Effect of inserting a present key on the number of stored entries:
unchanged. -/
theorem insert_inorder_length_some [LinearOrder K] {t : Tree K V} {k : K}
    {v0 : V} (v : V) (np : Nat) (hg : t.get k = some v0) :
    (t.insert_or_replace k v np).1.inorder.length = t.inorder.length := by
  have hlen := congrArg List.length (insert_keysOf_of_get_some v np hg)
  simpa [keysOf] using hlen

/-- Effect of removing a present key on the number of stored entries:
exactly one entry disappears. -/
theorem remove_inorder_length [LinearOrder K] {t : Tree K V} {k : K}
    {v : V} (hg : t.get k = some v) :
    (t.remove k).1.inorder.length + 1 = t.inorder.length := by
  induction t with
  | leaf => simp [get] at hg
  | node k0 v0 p0 l r ihl ihr =>
    rcases lt_trichotomy k k0 with h | h | h
    · rw [get, if_pos h] at hg
      simp only [remove, if_pos h, inorder, List.length_append,
        List.length_cons]
      have := ihl hg
      omega
    · subst h
      simp only [remove, if_neg (lt_irrefl k)]
      rw [rotate_down_inorder]
      simp only [left, right, inorder, List.length_append, List.length_cons]
      omega
    · rw [get, if_neg (asymm h), if_pos h] at hg
      simp only [remove, if_neg (asymm h), if_pos h, inorder,
        List.length_append, List.length_cons]
      have := ihr hg
      omega

theorem pairsOf_node (k : K) (v : V) (p : Nat) (l r : Tree K V) :
    (node k v p l r).pairsOf = l.pairsOf ++ (k, v) :: r.pairsOf := by
  simp [pairsOf, inorder]

theorem map_fst_pairsOf (t : Tree K V) :
    t.pairsOf.map Prod.fst = t.keysOf := by
  simp [pairsOf, keysOf, List.map_map]

end Tree

/-- Draining the ordered iterator's stack yields the concatenation of
the contributions of its work items. -/
theorem orderedDrain_eq {K V : Type} (s : List (Traversal (Tree K V))) :
    orderedDrain s = (s.map travEntries).flatten := by
  induction s using orderedDrain.induct with
  | case1 => simp [orderedDrain]
  | case2 rest ih =>
    simp only [orderedDrain, List.map_cons, List.flatten_cons, travEntries]
    simpa [Tree.pairsOf, Tree.inorder] using ih
  | case3 k v p l r rest ih =>
    rw [orderedDrain, ih]
    cases l with
    | leaf =>
      simp [pushLeft, travEntries, Tree.pairsOf_node, Tree.pairsOf,
        Tree.inorder]
    | node lk lv lp ll lr =>
      simp [pushLeft, travEntries, Tree.pairsOf_node, List.append_assoc]
  | case4 rest ih =>
    simp only [orderedDrain, List.map_cons, List.flatten_cons, travEntries]
    simpa using ih
  | case5 k v p l r rest ih =>
    rw [orderedDrain, ih]
    cases r with
    | leaf =>
      simp [pushLeft, travEntries, Tree.pairsOf, Tree.inorder]
    | node rk rv rp rl rr =>
      simp [pushLeft, travEntries]

/-- Draining the unordered work list yields, up to permutation, the
concatenation of the (key, value) pairs of the trees on it. -/
theorem unorderedDrain_perm {K V : Type} (s : List (Tree K V)) :
    (unorderedDrain s).Perm ((s.map Tree.pairsOf).flatten) := by
  induction s using unorderedDrain.induct with
  | case1 => simp [unorderedDrain]
  | case2 rest ih =>
    simp only [unorderedDrain, List.map_cons, List.flatten_cons]
    simpa [Tree.pairsOf, Tree.inorder] using ih
  | case3 k v p l r rest ih =>
    rw [unorderedDrain]
    simp only [List.map_cons, List.flatten_cons, Tree.pairsOf_node,
      List.append_assoc, List.cons_append]
    cases l with
    | leaf =>
      cases r with
      | leaf =>
        simp only [pushNode] at ih
        simpa [Tree.pairsOf, Tree.inorder] using ih.cons (k, v)
      | node rk rv rp rl rr =>
        simp only [pushNode, List.map_cons, List.flatten_cons] at ih
        simpa [Tree.pairsOf, Tree.inorder] using ih.cons (k, v)
    | node lk lv lp ll lr =>
      cases r with
      | leaf =>
        simp only [pushNode, List.map_cons, List.flatten_cons] at ih
        have step := ih.cons (k, v)
        refine step.trans ?_
        have hmid :
            ((k, v) :: ((Tree.node lk lv lp ll lr).pairsOf ++
                (List.map Tree.pairsOf rest).flatten)).Perm
              ((Tree.node lk lv lp ll lr).pairsOf ++
                (k, v) :: (List.map Tree.pairsOf rest).flatten) :=
          List.perm_middle.symm
        simpa [Tree.pairsOf, Tree.inorder] using hmid
      | node rk rv rp rl rr =>
        simp only [pushNode, List.map_cons, List.flatten_cons] at ih
        have step := ih.cons (k, v)
        refine step.trans ?_
        have hswap :
            ((Tree.node rk rv rp rl rr).pairsOf ++
              ((Tree.node lk lv lp ll lr).pairsOf ++
                (List.map Tree.pairsOf rest).flatten)).Perm
            ((Tree.node lk lv lp ll lr).pairsOf ++
              ((Tree.node rk rv rp rl rr).pairsOf ++
                (List.map Tree.pairsOf rest).flatten)) := by
          rw [← List.append_assoc, ← List.append_assoc]
          exact (List.perm_append_comm).append_right _
        refine (hswap.cons (k, v)).trans ?_
        exact List.perm_middle.symm

namespace Tree

variable {K V : Type}

/-- On a BST, `get` finds `none` exactly for absent keys. -/
theorem get_eq_none_iff [LinearOrder K] {t : Tree K V}
    (ht : t.isBST = true) (k : K) :
    t.get k = none ↔ k ∉ t.keysOf := by
  rw [get_eq_getEntry, getEntry_eq_find ht]
  cases hf : t.inorder.find? (fun e => decide (e.1 = k)) with
  | none =>
    rw [List.find?_eq_none] at hf
    refine ⟨fun _ hmem => ?_, fun _ => rfl⟩
    obtain ⟨e, he, hek⟩ := List.mem_map.mp hmem
    exact hf e he (by simp [hek])
  | some e =>
    have := List.find?_some hf
    have hek : e.1 = k := by simpa using this
    have hmem : k ∈ t.keysOf :=
      hek ▸ List.mem_map_of_mem _ (List.mem_of_find?_eq_some hf)
    simp [hmem]

end Tree

namespace TreapMap

variable {K V : Type}

theorem WF_new [LinearOrder K] : (new : TreapMap K V).WF := by
  refine ⟨rfl, rfl, rfl⟩

theorem WF_clear [LinearOrder K] (m : TreapMap K V) : m.clear.WF := by
  refine ⟨rfl, rfl, rfl⟩

/-- The value returned by map-level `insert` is the previous value at
the key. -/
theorem insert_prev [LinearOrder K] (m : TreapMap K V) (k : K) (v : V)
    (np : Nat) : (m.insert k v np).2 = m.get k :=
  Tree.insert_snd m.root k v np

/-- The value returned by map-level `remove` is the previous value at
the key. -/
theorem remove_prev [LinearOrder K] (m : TreapMap K V) (k : K) :
    (m.remove k).2 = m.get k :=
  Tree.remove_snd m.root k

/-- Map-level insertion preserves well-formedness. -/
theorem WF_insert [LinearOrder K] {m : TreapMap K V} (hm : m.WF) (k : K)
    (v : V) (np : Nat) : ((m.insert k v np).1).WF := by
  obtain ⟨hb, hh, hs⟩ := hm
  refine ⟨Tree.insert_isBST hb k v np, Tree.insert_isHeap hh k v np, ?_⟩
  simp only [insert]
  cases hg : m.root.get k with
  | none =>
    rw [Tree.insert_inorder_length_none v np hg]
    have : (m.root.insert_or_replace k v np).2 = none := by
      rw [Tree.insert_snd, hg]
    simp [this, hs]
  | some v0 =>
    rw [Tree.insert_inorder_length_some v np hg]
    have : (m.root.insert_or_replace k v np).2 = some v0 := by
      rw [Tree.insert_snd, hg]
    simp [this, hs]

/-- Map-level removal preserves well-formedness. -/
theorem WF_remove [LinearOrder K] {m : TreapMap K V} (hm : m.WF) (k : K) :
    ((m.remove k).1).WF := by
  obtain ⟨hb, hh, hs⟩ := hm
  refine ⟨Tree.remove_isBST hb k, Tree.remove_isHeap hh k, ?_⟩
  simp only [remove]
  cases hg : m.root.get k with
  | none =>
    have hun := Tree.remove_of_get_none hg
    rw [hun]
    simpa using hs
  | some v0 =>
    have hlen := Tree.remove_inorder_length hg
    have : (m.root.remove k).2 = some v0 := by
      rw [Tree.remove_snd, hg]
    simp only [this, Option.isSome_some, if_pos]
    omega

/-- Ordered iteration yields exactly the in-order (key, value) pairs of
the tree. -/
theorem orderedEntries_eq_pairs (m : TreapMap K V) :
    m.orderedEntries = m.root.pairsOf := by
  cases hr : m.root with
  | leaf => simp [orderedEntries, iter_ordered, hr, orderedDrain, Tree.pairsOf, Tree.inorder]
  | node k v p l r =>
    simp [orderedEntries, iter_ordered, hr, orderedDrain_eq, travEntries]

/-- Unordered iteration yields the in-order pairs of the tree up to
permutation. -/
theorem unorderedEntries_perm (m : TreapMap K V) :
    m.unorderedEntries.Perm m.root.pairsOf := by
  cases hr : m.root with
  | leaf =>
    simp [unorderedEntries, iterInit, hr, unorderedDrain, Tree.pairsOf,
      Tree.inorder]
  | node k v p l r =>
    have := unorderedDrain_perm (s := [Tree.node k v p l r])
    simpa [unorderedEntries, iterInit, hr] using this

end TreapMap

/-- Every map reachable by a sequence of public mutating operations
from the empty map is well-formed. -/
theorem WF_runOps [LinearOrder K] (ops : List (Op K V)) :
    (runOps ops).WF := by
  suffices h : ∀ (ops : List (Op K V)) (m : TreapMap K V), m.WF →
      (ops.foldl applyOp m).WF by
    exact h ops TreapMap.new TreapMap.WF_new
  intro ops
  induction ops with
  | nil => intro m hm; exact hm
  | cons op ops ih =>
    intro m hm
    cases op with
    | insert k v np => exact ih _ (TreapMap.WF_insert hm k v np)
    | remove k => exact ih _ (TreapMap.WF_remove hm k)
    | clear => exact ih _ (TreapMap.WF_clear m)

namespace Tree

variable {K V : Type}

/-- On a BST, the left subtree holds exactly the entries whose key is
below the root key. -/
theorem bst_filter_left [LinearOrder K] {k : K} {v : V} {p : Nat}
    {l r : Tree K V} (ht : (node k v p l r).isBST = true) :
    l.inorder =
      (node k v p l r).inorder.filter (fun e => decide (e.1 < k)) := by
  rw [isBST_node_iff] at ht
  obtain ⟨h1, h2, _, _⟩ := ht
  simp only [inorder, List.filter_append, List.filter_cons]
  rw [List.filter_eq_self.mpr (fun e he => by simpa using h1 e he)]
  have hroot : (decide ((k, v, p).1 < k)) = false := by simp
  rw [hroot]
  have hr : r.inorder.filter (fun e => decide (e.1 < k)) = [] := by
    rw [List.filter_eq_nil]
    intro e he
    simp
    exact le_of_lt (h2 e he)
  rw [hr]
  simp

/-- On a BST, the right subtree holds exactly the entries whose key is
above the root key. -/
theorem bst_filter_right [LinearOrder K] {k : K} {v : V} {p : Nat}
    {l r : Tree K V} (ht : (node k v p l r).isBST = true) :
    r.inorder =
      (node k v p l r).inorder.filter (fun e => decide (k < e.1)) := by
  rw [isBST_node_iff] at ht
  obtain ⟨h1, h2, _, _⟩ := ht
  simp only [inorder, List.filter_append, List.filter_cons]
  have hl : l.inorder.filter (fun e => decide (k < e.1)) = [] := by
    rw [List.filter_eq_nil]
    intro e he
    simp
    exact le_of_lt (h1 e he)
  rw [hl]
  have hroot2 : (decide (k < (k, v, p).1)) = false := by simp
  rw [hroot2]
  rw [List.filter_eq_self.mpr (fun e he => by simpa using h2 e he)]
  simp

/-- A treap shape is unique: two trees that both satisfy the BST and
heap invariants and hold the same entries with pairwise distinct
priorities are equal. -/
theorem treap_unique_aux [LinearOrder K] :
    ∀ (n : Nat) (t₁ t₂ : Tree K V), t₁.inorder.length ≤ n →
      t₁.isBST = true → t₂.isBST = true →
      t₁.isHeap = true → t₂.isHeap = true →
      t₁.inorder.Perm t₂.inorder →
      (t₁.inorder.map (fun e => e.2.2)).Nodup →
      t₁ = t₂ := by
  intro n
  induction n with
  | zero =>
    intro t₁ t₂ hlen _ _ _ _ hperm _
    have h₁ : t₁.inorder = [] := List.length_eq_zero.mp (Nat.le_zero.mp hlen)
    have h₂ : t₂.inorder = [] := (h₁ ▸ hperm.symm).eq_nil
    rw [inorder_eq_nil_iff] at h₁ h₂
    rw [h₁, h₂]
  | succ n ih =>
    intro t₁ t₂ hlen hb₁ hb₂ hh₁ hh₂ hperm hnd
    cases t₁ with
    | leaf =>
      have h₂ : t₂.inorder = [] := by
        have : (leaf : Tree K V).inorder = [] := rfl
        exact (this ▸ hperm.symm).eq_nil
      rw [inorder_eq_nil_iff] at h₂
      rw [h₂]
    | node k₁ v₁ p₁ l₁ r₁ =>
      cases t₂ with
      | leaf =>
        have h₁ : (node k₁ v₁ p₁ l₁ r₁).inorder = [] := hperm.eq_nil
        simp [inorder] at h₁
      | node k₂ v₂ p₂ l₂ r₂ =>
        have hm₁ : ∀ e ∈ (node k₁ v₁ p₁ l₁ r₁).inorder, e.2.2 ≤ p₁ := by
          intro e he
          have := priOf_le_of_mem_of_isHeap hh₁ he
          simpa [priOf] using this
        have hm₂ : ∀ e ∈ (node k₂ v₂ p₂ l₂ r₂).inorder, e.2.2 ≤ p₂ := by
          intro e he
          have := priOf_le_of_mem_of_isHeap hh₂ he
          simpa [priOf] using this
        have hr₁ : (k₁, v₁, p₁) ∈ (node k₁ v₁ p₁ l₁ r₁).inorder := by
          simp [inorder]
        have hr₂ : (k₂, v₂, p₂) ∈ (node k₂ v₂ p₂ l₂ r₂).inorder := by
          simp [inorder]
        have hple : p₁ ≤ p₂ := hm₂ (k₁, v₁, p₁) (hperm.subset hr₁)
        have hpge : p₂ ≤ p₁ := hm₁ (k₂, v₂, p₂) (hperm.symm.subset hr₂)
        have hpeq : p₁ = p₂ := le_antisymm hple hpge
        subst hpeq
        have hnd₂ : ((node k₂ v₂ p₁ l₂ r₂).inorder.map
            (fun e => e.2.2)).Nodup :=
          ((hperm.map (fun e => e.2.2)).nodup_iff).mp hnd
        have hrooteq : (k₁, v₁, p₁) = (k₂, v₂, p₁) :=
          List.inj_on_of_nodup_map hnd₂ (hperm.subset hr₁) hr₂ rfl
        have hkeq : k₁ = k₂ := congrArg (fun e => e.1) hrooteq
        have hveq : v₁ = v₂ := congrArg (fun e => e.2.1) hrooteq
        subst hkeq
        subst hveq
        have hlperm : l₁.inorder.Perm l₂.inorder := by
          rw [bst_filter_left hb₁, bst_filter_left hb₂]
          exact hperm.filter _
        have hrperm : r₁.inorder.Perm r₂.inorder := by
          rw [bst_filter_right hb₁, bst_filter_right hb₂]
          exact hperm.filter _
        rw [isBST_node_iff] at hb₁ hb₂
        rw [isHeap_node_iff] at hh₁ hh₂
        have hsubl : l₁.inorder.Sublist (node k₁ v₁ p₁ l₁ r₁).inorder :=
          List.sublist_append_left _ _
        have hsubr : r₁.inorder.Sublist (node k₁ v₁ p₁ l₁ r₁).inorder := by
          have h1 : r₁.inorder.Sublist ((k₁, v₁, p₁) :: r₁.inorder) :=
            List.sublist_cons_self _ _
          exact h1.trans (List.sublist_append_right _ _)
        have hndl : (l₁.inorder.map (fun e => e.2.2)).Nodup :=
          hnd.sublist (hsubl.map _)
        have hndr : (r₁.inorder.map (fun e => e.2.2)).Nodup :=
          hnd.sublist (hsubr.map _)
        have hlenl : l₁.inorder.length ≤ n := by
          simp only [inorder, List.length_append, List.length_cons] at hlen
          omega
        have hlenr : r₁.inorder.length ≤ n := by
          simp only [inorder, List.length_append, List.length_cons] at hlen
          omega
        have hl := ih l₁ l₂ hlenl hb₁.2.2.1 hb₂.2.2.1 hh₁.2.2.1 hh₂.2.2.1
          hlperm hndl
        have hr := ih r₁ r₂ hlenr hb₁.2.2.2 hb₂.2.2.2 hh₁.2.2.2 hh₂.2.2.2
          hrperm hndr
        rw [hl, hr]

/-- A treap shape is unique (top-level form). -/
theorem treap_unique [LinearOrder K] {t₁ t₂ : Tree K V}
    (hb₁ : t₁.isBST = true) (hb₂ : t₂.isBST = true)
    (hh₁ : t₁.isHeap = true) (hh₂ : t₂.isHeap = true)
    (hperm : t₁.inorder.Perm t₂.inorder)
    (hnd : (t₁.inorder.map (fun e => e.2.2)).Nodup) : t₁ = t₂ :=
  treap_unique_aux t₁.inorder.length t₁ t₂ (le_refl _) hb₁ hb₂ hh₁ hh₂
    hperm hnd

end Tree

namespace TreapMap

variable {K V : Type}

theorem eq_of_parts {m₁ m₂ : TreapMap K V} (hr : m₁.root = m₂.root)
    (hs : m₁.size = m₂.size) : m₁ = m₂ := by
  cases m₁; cases m₂
  simp only at hr hs
  rw [hr, hs]

/-- Map-level lookup after insertion. -/
theorem get_insert [LinearOrder K] {m : TreapMap K V}
    (hb : m.root.isBST = true) (k : K) (v : V) (np : Nat) (q : K) :
    (m.insert k v np).1.get q = if q = k then some v else m.get q := by
  show (m.root.insert_or_replace k v np).1.get q = _
  rw [Tree.get_eq_getEntry, Tree.getEntry_insert hb k v np q]
  by_cases hq : q = k
  · rw [if_pos hq, if_pos hq]
    rfl
  · rw [if_neg hq, if_neg hq, ← Tree.get_eq_getEntry]
    rfl

/-- Map-level lookup after removal. -/
theorem get_remove [LinearOrder K] {m : TreapMap K V}
    (hb : m.root.isBST = true) (k q : K) :
    (m.remove k).1.get q = if q = k then none else m.get q := by
  show (m.root.remove k).1.get q = _
  rw [Tree.get_eq_getEntry, Tree.getEntry_remove hb k q]
  by_cases hq : q = k
  · rw [if_pos hq, if_pos hq]
    rfl
  · rw [if_neg hq, if_neg hq, ← Tree.get_eq_getEntry]
    rfl

/-- Bulk insertion preserves well-formedness. -/
theorem extend_WF [LinearOrder K] :
    ∀ (l : List (K × V × Nat)) (m : TreapMap K V), m.WF → (m.extend l).WF := by
  intro l
  induction l with
  | nil => intro m hm; exact hm
  | cons e l ih =>
    intro m hm
    exact ih _ (WF_insert hm e.1 e.2.1 e.2.2)

theorem from_iter_WF [LinearOrder K] (l : List (K × V × Nat)) :
    (from_iter l : TreapMap K V).WF :=
  extend_WF l new WF_new

/-- Bulk insertion of fresh, pairwise distinct keys prepends exactly
those entries to the contents (up to permutation). -/
theorem extend_inorder_perm [LinearOrder K] :
    ∀ (l : List (K × V × Nat)) (m : TreapMap K V),
      m.root.isBST = true →
      (∀ e ∈ l, e.1 ∉ m.root.keysOf) →
      (l.map (fun e => e.1)).Nodup →
      ((m.extend l).root.inorder).Perm (l ++ m.root.inorder) := by
  intro l
  induction l with
  | nil =>
    intro m _ _ _
    simp [extend]
  | cons e l ih =>
    intro m hb hfresh hnd
    have hget : m.root.get e.1 = none :=
      (Tree.get_eq_none_iff hb e.1).mpr (hfresh e (by simp))
    have hroot : ((m.insert e.1 e.2.1 e.2.2).1).root =
        (m.root.insert_or_replace e.1 e.2.1 e.2.2).1 := rfl
    have hperm1 : ((m.insert e.1 e.2.1 e.2.2).1).root.inorder.Perm
        ((e.1, e.2.1, e.2.2) :: m.root.inorder) := by
      rw [hroot]
      exact Tree.insert_inorder_of_get_none e.2.1 e.2.2 hget
    have hb1 : ((m.insert e.1 e.2.1 e.2.2).1).root.isBST = true := by
      rw [hroot]
      exact Tree.insert_isBST hb e.1 e.2.1 e.2.2
    have hfresh1 :
        ∀ f ∈ l, f.1 ∉ ((m.insert e.1 e.2.1 e.2.2).1).root.keysOf := by
      intro f hf hmem
      obtain ⟨x, hx, hxf⟩ := List.mem_map.mp hmem
      rw [hroot] at hx
      rcases Tree.insert_keys_subset m.root e.1 e.2.1 e.2.2 x hx with hc | hc
      · have hfk : f.1 ∈ l.map (fun e => e.1) := List.mem_map_of_mem _ hf
        have hnd2 := hnd
        simp only [List.map_cons, List.nodup_cons] at hnd2
        exact hnd2.1 (by rw [← hxf, hc] at hfk; exact hfk)
      · exact hfresh f (by simp [hf]) (hxf ▸ hc)
    have hnd1 : (l.map (fun e => e.1)).Nodup := (List.nodup_cons.mp hnd).2
    have hih := ih _ hb1 hfresh1 hnd1
    have hchain := hih.trans (hperm1.append_left l)
    have hfinal : ((m.insert e.1 e.2.1 e.2.2).1.extend l).root.inorder.Perm
        ((e.1, e.2.1, e.2.2) :: (l ++ m.root.inorder)) :=
      hchain.trans List.perm_middle
    have hext : (m.extend (e :: l)) =
        ((m.insert e.1 e.2.1 e.2.2).1).extend l := by
      simp [extend]
    rw [hext]
    exact hfinal

/-- Bulk construction from pairwise distinct keys holds exactly the
given entries (up to permutation). -/
theorem from_iter_inorder_perm [LinearOrder K] (l : List (K × V × Nat))
    (hnd : (l.map (fun e => e.1)).Nodup) :
    ((from_iter l : TreapMap K V).root.inorder).Perm l := by
  have h := extend_inorder_perm l new rfl
    (by intro e _ hmem; simp [new, Tree.keysOf, Tree.inorder] at hmem) hnd
  simpa [new, Tree.inorder] using h

/-- Lookup in a bulk-constructed map returns the value of the last pair
with the sought key. -/
theorem from_iter_get [LinearOrder K] (l : List (K × V × Nat)) (q : K) :
    (from_iter l : TreapMap K V).get q =
      ((l.reverse.find? (fun e => decide (e.1 = q))).map (fun e => e.2.1)) := by
  induction l using List.reverseRecOn with
  | nil => rfl
  | append_singleton l e ih =>
    have hfi : (from_iter (l ++ [e]) : TreapMap K V) =
        ((from_iter l).insert e.1 e.2.1 e.2.2).1 := by
      simp [from_iter, extend, List.foldl_append]
    obtain ⟨hb, hh, hs⟩ := from_iter_WF (l := l) (K := K) (V := V)
    rw [hfi, get_insert hb]
    rw [List.reverse_append]
    simp only [List.reverse_singleton, List.singleton_append, List.find?_cons]
    by_cases hk : e.1 = q
    · rw [if_pos (hk.symm)]
      simp [hk]
    · rw [if_neg (fun hc => hk hc.symm)]
      have : (decide (e.1 = q)) = false := by simpa using hk
      rw [this]
      exact ih

/-- The size of a bulk-constructed map is the number of distinct keys
in the sequence. -/
theorem from_iter_size [LinearOrder K] (l : List (K × V × Nat)) :
    (from_iter l : TreapMap K V).size =
      (l.map (fun e => e.1)).toFinset.card := by
  induction l using List.reverseRecOn with
  | nil => rfl
  | append_singleton l e ih =>
    have hfi : (from_iter (l ++ [e]) : TreapMap K V) =
        ((from_iter l).insert e.1 e.2.1 e.2.2).1 := by
      simp [from_iter, extend, List.foldl_append]
    have hget := from_iter_get (l := l) (q := e.1) (K := K) (V := V)
    rw [hfi]
    have hsnd : ((from_iter l : TreapMap K V).insert e.1 e.2.1 e.2.2).2 =
        (from_iter l : TreapMap K V).get e.1 := insert_prev _ _ _ _
    rw [List.map_append, List.toFinset_append]
    have hsingle : (([e].map (fun e => e.1)).toFinset : Finset K) = {e.1} := by
      simp
    rw [hsingle]
    cases hge : (from_iter l : TreapMap K V).get e.1 with
    | none =>
      have hnotmem : e.1 ∉ (l.map (fun e => e.1)) := by
        rw [hget] at hge
        have hfn : l.reverse.find? (fun f => decide (f.1 = e.1)) = none :=
          Option.map_eq_none.mp hge
        rw [List.find?_eq_none] at hfn
        intro hmem
        obtain ⟨x, hx, hxe⟩ := List.mem_map.mp hmem
        exact hfn x (List.mem_reverse.mpr hx) (by simp [hxe])
      have hsz : ((from_iter l : TreapMap K V).insert e.1 e.2.1 e.2.2).1.size =
          (from_iter l : TreapMap K V).size + 1 := by
        simp only [insert]
        rw [Tree.insert_snd]
        have : (from_iter l : TreapMap K V).root.get e.1 = none := hge
        simp [this]
      rw [hsz, ih]
      rw [Finset.union_comm, ← Finset.insert_eq,
        Finset.card_insert_of_not_mem (by
          rw [List.mem_toFinset]
          exact hnotmem)]
    | some v0 =>
      have hmem : e.1 ∈ (l.map (fun e => e.1)) := by
        rw [hget] at hge
        obtain ⟨x, hf⟩ := Option.map_eq_some'.mp hge
        have hx := List.mem_of_find?_eq_some hf.1
        have hxk := List.find?_some hf.1
        have : x.1 = e.1 := by simpa using hxk
        exact this ▸ List.mem_map_of_mem _ (List.mem_reverse.mp hx)
      have hsz : ((from_iter l : TreapMap K V).insert e.1 e.2.1 e.2.2).1.size =
          (from_iter l : TreapMap K V).size := by
        simp only [insert]
        rw [Tree.insert_snd]
        have : (from_iter l : TreapMap K V).root.get e.1 = some v0 := hge
        simp [this]
      rw [hsz, ih]
      have hsub : ({e.1} : Finset K) ⊆ (l.map (fun e => e.1)).toFinset := by
        rw [Finset.singleton_subset_iff, List.mem_toFinset]
        exact hmem
      rw [Finset.union_eq_left.mpr hsub]

end TreapMap

/-! ## Claim theorems -/

/-- C1: after every sequence of public mutating map operations (insert,
remove, clear) starting from the empty map — read-only operations leave
the tree untouched — every node reachable from the root satisfies the
BST invariant (left keys less, right keys greater, keys unique across
the tree) and the max-heap invariant (each node's priority is ≥ that of
each present child). -/
theorem claim_C1 [LinearOrder K] {V : Type} (ops : List (Op K V)) :
    (runOps ops).root.isBST = true ∧ (runOps ops).root.isHeap = true ∧
    (runOps ops).root.keysOf.Nodup := by
  obtain ⟨hb, hh, _⟩ := WF_runOps ops
  exact ⟨hb, hh, Tree.keys_nodup_of_isBST hb⟩

/-- C2: after every sequence of insert, remove and clear operations
starting from the empty map, `len()` equals the number of distinct keys
reachable from the root, which equals the count of pairs yielded by any
exhaustive iterator (ordered or unordered). -/
theorem claim_C2 [LinearOrder K] {V : Type} (ops : List (Op K V)) :
    (runOps ops).size = (runOps ops).root.keysOf.length ∧
    (runOps ops).root.keysOf.Nodup ∧
    (runOps ops).size = (runOps ops).root.keysOf.toFinset.card ∧
    (runOps ops).orderedEntries.length = (runOps ops).size ∧
    (runOps ops).unorderedEntries.length = (runOps ops).size := by
  obtain ⟨hb, hh, hs⟩ := WF_runOps ops
  have hk : (runOps ops).root.keysOf.length =
      (runOps ops).root.inorder.length := by
    simp [Tree.keysOf]
  have hnd := Tree.keys_nodup_of_isBST hb
  refine ⟨by rw [hs, hk], hnd, ?_, ?_, ?_⟩
  · rw [List.toFinset_card_of_nodup hnd, hs, hk]
  · rw [TreapMap.orderedEntries_eq_pairs, hs]
    simp [Tree.pairsOf]
  · rw [(TreapMap.unorderedEntries_perm _).length_eq, hs]
    simp [Tree.pairsOf]

/-- C6: removing an absent key returns `None` and leaves the map
completely unchanged (same root tree, same size counter). -/
theorem claim_C6 [LinearOrder K] {V : Type} (m : TreapMap K V) (k : K)
    (hg : m.get k = none) : m.remove k = (m, none) := by
  have htn : m.root.get k = none := hg
  have hr := Tree.remove_of_get_none htn
  simp only [TreapMap.remove, hr]
  rfl

/-- C6 witness: removing the absent key 2 from a concrete one-entry map
returns `None` and the unchanged map. -/
theorem claim_C6_witness :
    ((TreapMap.new.insert 1 10 5).1 : TreapMap Nat Nat).remove 2 =
      (((TreapMap.new.insert 1 10 5).1 : TreapMap Nat Nat), none) :=
  claim_C6 ((TreapMap.new.insert 1 10 5).1 : TreapMap Nat Nat) 2 (by decide)

/-- C7: the ordered iterator yields exactly the sequence a recursive
in-order walk produces, and on any tree satisfying the BST invariant
(i.e. any reachable tree contents) its keys are strictly increasing. -/
theorem claim_C7 [LinearOrder K] {V : Type} (m : TreapMap K V) :
    m.orderedEntries = m.root.pairsOf ∧
    (m.root.isBST = true →
      List.Sorted (· < ·) (m.orderedEntries.map Prod.fst)) := by
  refine ⟨TreapMap.orderedEntries_eq_pairs m, fun hb => ?_⟩
  rw [TreapMap.orderedEntries_eq_pairs m, Tree.map_fst_pairsOf]
  exact Tree.keys_pairwise_of_isBST hb

/-- C7 witness: the ordered iterator of a concrete three-entry map
yields strictly increasing keys. -/
theorem claim_C7_witness :
    List.Sorted (· < ·)
      (((TreapMap.from_iter [(3, 0, 4), (1, 0, 9), (2, 0, 2)] :
        TreapMap Nat Nat).orderedEntries).map Prod.fst) :=
  (claim_C7 (TreapMap.from_iter [(3, 0, 4), (1, 0, 9), (2, 0, 2)] :
    TreapMap Nat Nat)).2 (by decide)

/-- C8: each unordered iterator (the borrowed, mutable and owning
iterators, which all share the work-list algorithm modelled by
`unorderedDrain`) yields exactly the same (key, value) pairs as the
ordered iterator — every entry exactly once — up to order. -/
theorem claim_C8 [LinearOrder K] {V : Type} (m : TreapMap K V) :
    m.unorderedEntries.Perm m.orderedEntries := by
  have h1 := TreapMap.unorderedEntries_perm m
  rw [← TreapMap.orderedEntries_eq_pairs m] at h1
  exact h1

/-- C4: inserting over an existing key replaces the stored value,
returns the previous value, raises the node's stored priority to the
maximum of the old priority and the fresh sample (never lowering it),
and leaves the size counter unchanged; the counter is incremented
exactly when no prior value existed. -/
theorem claim_C4 [LinearOrder K] {V : Type} (m : TreapMap K V) (k : K)
    (v : V) (np : Nat) (hb : m.root.isBST = true) :
    (∀ (v₀ : V) (p₀ : Nat), m.root.getEntry k = some (v₀, p₀) →
      (m.insert k v np).2 = some v₀ ∧
      (m.insert k v np).1.get k = some v ∧
      (m.insert k v np).1.root.getEntry k = some (v, max p₀ np) ∧
      (m.insert k v np).1.size = m.size) ∧
    (m.get k = none →
      (m.insert k v np).2 = none ∧
      (m.insert k v np).1.size = m.size + 1) := by
  constructor
  · intro v₀ p₀ hge
    have hgv : m.get k = some v₀ := by
      show m.root.get k = some v₀
      rw [Tree.get_eq_getEntry, hge]
      rfl
    refine ⟨?_, ?_, ?_, ?_⟩
    · rw [TreapMap.insert_prev, hgv]
    · rw [TreapMap.get_insert hb, if_pos rfl]
    · show (m.root.insert_or_replace k v np).1.getEntry k = _
      rw [Tree.getEntry_insert hb k v np k, if_pos rfl, hge]
      show (some (v, if p₀ < np then np else p₀) : Option (V × Nat)) = _
      have hmx : (if p₀ < np then np else p₀) = max p₀ np := by
        rcases Nat.lt_or_ge p₀ np with h | h
        · rw [if_pos h]
          omega
        · rw [if_neg (not_lt.mpr h)]
          omega
      rw [hmx]
    · show (if (m.root.insert_or_replace k v np).2.isNone then m.size + 1
          else m.size) = m.size
      rw [Tree.insert_snd]
      have htv : m.root.get k = some v₀ := hgv
      simp [htv]
  · intro hgn
    have htn : m.root.get k = none := hgn
    constructor
    · rw [TreapMap.insert_prev]
      exact hgn
    · show (if (m.root.insert_or_replace k v np).2.isNone then m.size + 1
          else m.size) = m.size + 1
      rw [Tree.insert_snd, htn]
      simp

/-- C4 witness: re-inserting key 1 into a concrete one-entry map
returns the old value, keeps the size, and raises the priority to the
maximum of old and fresh samples. -/
theorem claim_C4_witness :
    (((TreapMap.new.insert 1 10 5).1 : TreapMap Nat Nat).insert 1 20 3).2 =
        some 10 ∧
    (((TreapMap.new.insert 1 10 5).1 : TreapMap Nat Nat).insert
        1 20 3).1.root.getEntry 1 = some (20, max 5 3) ∧
    (((TreapMap.new.insert 1 10 5).1 : TreapMap Nat Nat).insert
        1 20 3).1.size =
      ((TreapMap.new.insert 1 10 5).1 : TreapMap Nat Nat).size := by
  have h := (claim_C4 ((TreapMap.new.insert 1 10 5).1 : TreapMap Nat Nat)
    1 20 3 (by decide)).1 10 5 (by decide)
  exact ⟨h.1, h.2.2.1, h.2.2.2⟩

/-- C5: removing a present key rotates the located node downward —
right rotation when the left child's priority is ≥ the right child's
(an absent child acting as −∞, ties preferring the right rotation),
left rotation otherwise, recursing into the slot now holding the node —
until it is childless, then detaches it, returning its stored value and
decrementing the size counter by exactly one. -/
theorem claim_C5 [LinearOrder K] {V : Type} (m : TreapMap K V) (k : K)
    (v : V) (hm : m.WF) (hg : m.get k = some v) :
    (m.remove k).2 = some v ∧
    (m.remove k).1.size + 1 = m.size ∧
    (m.remove k).1.get k = none ∧
    (∀ (k₀ : K) (v₀ : V) (p : Nat),
      Tree.rotate_down (Tree.node k₀ v₀ p Tree.leaf Tree.leaf) =
        (Tree.leaf, some v₀)) ∧
    (∀ (k₀ kl kr : K) (v₀ vl vr : V) (p pl pr : Nat)
        (a b c d : Tree K V), pr ≤ pl →
      (Tree.node k₀ v₀ p (Tree.node kl vl pl a b)
          (Tree.node kr vr pr c d)).right_rotate =
        Tree.node kl vl pl a
          (Tree.node k₀ v₀ p b (Tree.node kr vr pr c d)) ∧
      Tree.rotate_down (Tree.node k₀ v₀ p (Tree.node kl vl pl a b)
          (Tree.node kr vr pr c d)) =
        (Tree.node kl vl pl a
            (Tree.rotate_down (Tree.node k₀ v₀ p b
              (Tree.node kr vr pr c d))).1,
          (Tree.rotate_down (Tree.node k₀ v₀ p b
            (Tree.node kr vr pr c d))).2)) ∧
    (∀ (k₀ kl kr : K) (v₀ vl vr : V) (p pl pr : Nat)
        (a b c d : Tree K V), pl < pr →
      (Tree.node k₀ v₀ p (Tree.node kl vl pl a b)
          (Tree.node kr vr pr c d)).left_rotate =
        Tree.node kr vr pr
          (Tree.node k₀ v₀ p (Tree.node kl vl pl a b) c) d ∧
      Tree.rotate_down (Tree.node k₀ v₀ p (Tree.node kl vl pl a b)
          (Tree.node kr vr pr c d)) =
        (Tree.node kr vr pr
            (Tree.rotate_down (Tree.node k₀ v₀ p
              (Tree.node kl vl pl a b) c)).1 d,
          (Tree.rotate_down (Tree.node k₀ v₀ p
            (Tree.node kl vl pl a b) c)).2)) ∧
    (∀ (k₀ kl : K) (v₀ vl : V) (p pl : Nat) (a b : Tree K V),
      Tree.rotate_down (Tree.node k₀ v₀ p (Tree.node kl vl pl a b)
          Tree.leaf) =
        (Tree.node kl vl pl a
            (Tree.rotate_down (Tree.node k₀ v₀ p b Tree.leaf)).1,
          (Tree.rotate_down (Tree.node k₀ v₀ p b Tree.leaf)).2)) ∧
    (∀ (k₀ kr : K) (v₀ vr : V) (p pr : Nat) (c d : Tree K V),
      Tree.rotate_down (Tree.node k₀ v₀ p Tree.leaf
          (Tree.node kr vr pr c d)) =
        (Tree.node kr vr pr
            (Tree.rotate_down (Tree.node k₀ v₀ p Tree.leaf c)).1 d,
          (Tree.rotate_down (Tree.node k₀ v₀ p Tree.leaf c)).2)) := by
  obtain ⟨hb, hh, hs⟩ := hm
  have htg : m.root.get k = some v := hg
  refine ⟨?_, ?_, ?_, ?_, ?_, ?_, ?_, ?_⟩
  · rw [TreapMap.remove_prev]
    exact hg
  · show (if (m.root.remove k).2.isSome then m.size - 1 else m.size) + 1 =
      m.size
    rw [Tree.remove_snd, htg]
    have hlen := Tree.remove_inorder_length htg
    simp only [Option.isSome_some, if_pos]
    omega
  · rw [TreapMap.get_remove hb, if_pos rfl]
  · intro k₀ v₀ p
    simp [Tree.rotate_down]
  · intro k₀ kl kr v₀ vl vr p pl pr a b c d hle
    exact ⟨rfl, by rw [Tree.rotate_down]; rw [if_pos hle]⟩
  · intro k₀ kl kr v₀ vl vr p pl pr a b c d hlt
    exact ⟨rfl, by rw [Tree.rotate_down]; rw [if_neg (not_le.mpr hlt)]⟩
  · intro k₀ kl v₀ vl p pl a b
    rw [Tree.rotate_down]
  · intro k₀ kr v₀ vr p pr c d
    rw [Tree.rotate_down]

/-- C5 witness: removing key 1 from a concrete two-entry map returns
its value, leaves the key absent and shrinks the size by one. -/
theorem claim_C5_witness :
    ((((TreapMap.new.insert 1 10 5).1.insert 2 20 3).1 :
        TreapMap Nat Nat).remove 1).2 = some 10 ∧
    ((((TreapMap.new.insert 1 10 5).1.insert 2 20 3).1 :
        TreapMap Nat Nat).remove 1).1.size + 1 =
      (((TreapMap.new.insert 1 10 5).1.insert 2 20 3).1 :
        TreapMap Nat Nat).size ∧
    ((((TreapMap.new.insert 1 10 5).1.insert 2 20 3).1 :
        TreapMap Nat Nat).remove 1).1.get 1 = none := by
  have h := claim_C5 (((TreapMap.new.insert 1 10 5).1.insert 2 20 3).1 :
      TreapMap Nat Nat) 1 10
    ⟨by decide, by decide, by decide⟩ (by decide)
  exact ⟨h.1, h.2.1, h.2.2.1⟩

/-- C3 counterexample: with tied priorities the final tree shape is not
determined by the set of (key, priority) pairs — two insertion orders of
the same two distinct-key entries (both with priority 5) produce
different trees, so the claim as stated (for every sequence of
insertions of distinct keys) is false. -/
theorem claim_C3_cex :
    ([((1 : Nat), (0 : Nat), (5 : Nat)), (2, 0, 5)] :
        List (Nat × Nat × Nat)).Perm [(2, 0, 5), (1, 0, 5)] ∧
    (([((1 : Nat), (0 : Nat), (5 : Nat)), (2, 0, 5)] :
        List (Nat × Nat × Nat)).map (fun e => e.1)).Nodup ∧
    (TreapMap.from_iter [((1 : Nat), (0 : Nat), (5 : Nat)), (2, 0, 5)] :
        TreapMap Nat Nat) ≠
      TreapMap.from_iter [(2, 0, 5), (1, 0, 5)] :=
  ⟨by decide, by decide, by decide⟩

/-- C3 (amended: all sampled priorities pairwise distinct): inserting
any sequence of distinct keys with pairwise distinct priorities yields
the unique binary-search-tree-heap (Cartesian tree) determined by the
resulting set of (key, value, priority) entries — any insertion order
produces the same map, and any tree satisfying both invariants with the
same entries is that tree. -/
theorem claim_C3 [LinearOrder K] {V : Type} (l : List (K × V × Nat))
    (hkeys : (l.map (fun e => e.1)).Nodup)
    (hpris : (l.map (fun e => e.2.2)).Nodup) :
    (∀ l₂ : List (K × V × Nat), l.Perm l₂ →
      TreapMap.from_iter l₂ = (TreapMap.from_iter l : TreapMap K V)) ∧
    (∀ t : Tree K V, t.isBST = true → t.isHeap = true →
      t.inorder.Perm l → t = (TreapMap.from_iter l : TreapMap K V).root) := by
  obtain ⟨hb, hh, hs⟩ := TreapMap.from_iter_WF (l := l) (K := K) (V := V)
  have hperm := TreapMap.from_iter_inorder_perm l hkeys
  constructor
  · intro l₂ hp
    obtain ⟨hb₂, hh₂, hs₂⟩ := TreapMap.from_iter_WF (l := l₂) (K := K) (V := V)
    have hkeys₂ : (l₂.map (fun e => e.1)).Nodup :=
      ((hp.map _).nodup_iff).mp hkeys
    have hperm₂ := TreapMap.from_iter_inorder_perm l₂ hkeys₂
    have hpp : ((TreapMap.from_iter l₂ : TreapMap K V).root.inorder).Perm
        ((TreapMap.from_iter l : TreapMap K V).root.inorder) :=
      (hperm₂.trans hp.symm).trans hperm.symm
    have hnd₂ : (((TreapMap.from_iter l₂ : TreapMap K V).root.inorder).map
        (fun e => e.2.2)).Nodup :=
      ((hperm₂.map _).nodup_iff).mpr (((hp.map _).nodup_iff).mp hpris)
    have hroots := Tree.treap_unique hb₂ hb hh₂ hh hpp hnd₂
    refine TreapMap.eq_of_parts hroots ?_
    rw [hs, hs₂, hperm.length_eq, hperm₂.length_eq, hp.length_eq]
  · intro t hbt hht hpt
    have hnd : (t.inorder.map (fun e => e.2.2)).Nodup :=
      ((hpt.map _).nodup_iff).mpr hpris
    exact Tree.treap_unique hbt hb hht hh (hpt.trans hperm.symm) hnd

/-- C3 witness: two insertion orders of the same three entries with
distinct keys and distinct priorities build the same map. -/
theorem claim_C3_witness :
    (TreapMap.from_iter [((2 : Nat), (8 : Nat), (9 : Nat)), (1, 7, 5)] :
        TreapMap Nat Nat) =
      TreapMap.from_iter [(1, 7, 5), (2, 8, 9)] :=
  (claim_C3 [((1 : Nat), (7 : Nat), (5 : Nat)), (2, 8, 9)]
    (by decide) (by decide)).1 [(2, 8, 9), (1, 7, 5)] (by decide)

/-- C9 (the `new_with_rng` constructor is missing from `src/`; it is
modelled from the spec): the map offers a construction variant taking a
caller-provided generator; it starts empty holding the given generator
and seed, and each insertion of an absent key creates its node with the
priority freshly drawn from the injected source, advancing the
generator state — so a fixed seed makes behavior deterministic. -/
theorem claim_C9 [LinearOrder K] {V S : Type} (g : S → Nat × S) (seed : S)
    (m : TreapMapRng K V S) (k : K) (v : V)
    (hb : m.map.root.isBST = true) (hg : m.map.get k = none) :
    (new_with_rng g seed : TreapMapRng K V S).map = TreapMap.new ∧
    (new_with_rng g seed : TreapMapRng K V S).state = seed ∧
    (new_with_rng g seed : TreapMapRng K V S).gen = g ∧
    (m.insert k v).1.map.root.getEntry k = some (v, (m.gen m.state).1) ∧
    (m.insert k v).1.state = (m.gen m.state).2 ∧
    (m.insert k v).1.gen = m.gen ∧
    (m.insert k v).2 = none := by
  have htn : m.map.root.get k = none := hg
  have hge : m.map.root.getEntry k = none := by
    have := Tree.get_eq_getEntry m.map.root k
    rw [htn] at this
    exact (Option.map_eq_none.mp this.symm)
  refine ⟨rfl, rfl, rfl, ?_, rfl, rfl, ?_⟩
  · show ((m.map.insert k v (m.gen m.state).1).1).root.getEntry k = _
    show ((m.map.root.insert_or_replace k v (m.gen m.state).1)).1.getEntry k = _
    rw [Tree.getEntry_insert hb k v (m.gen m.state).1 k, if_pos rfl, hge]
  · show (m.map.insert k v (m.gen m.state).1).2 = none
    rw [TreapMap.insert_prev]
    exact hg

/-- C9 witness: a concrete generator with seed 4 — inserting key 1 into
the fresh map stores priority `(g 4).1 = 11` and advances the state to
`(g 4).2 = 5`. -/
theorem claim_C9_witness :
    ((new_with_rng (fun s => (2 * s + 3, s + 1)) 4 :
        TreapMapRng Nat Nat Nat).insert 1 2).1.map.root.getEntry 1 =
      some (2, 11) ∧
    ((new_with_rng (fun s => (2 * s + 3, s + 1)) 4 :
        TreapMapRng Nat Nat Nat).insert 1 2).1.state = 5 := by
  have h := claim_C9 (fun s => (2 * s + 3, s + 1)) 4
    (new_with_rng (fun s => (2 * s + 3, s + 1)) 4 : TreapMapRng Nat Nat Nat)
    1 2 (by decide) (by decide)
  exact ⟨h.2.2.2.1, h.2.2.2.2.1⟩

/-- C10: bulk construction (from_iter / extend, i.e. repeated insert)
from a sequence possibly containing duplicate keys maps each key to the
value of its last occurrence, and the size equals the number of
distinct keys in the sequence. -/
theorem claim_C10 [LinearOrder K] {V : Type} (l : List (K × V × Nat))
    (q : K) :
    (TreapMap.from_iter l : TreapMap K V).get q =
      ((l.reverse.find? (fun e => decide (e.1 = q))).map (fun e => e.2.1)) ∧
    (TreapMap.from_iter l : TreapMap K V).size =
      (l.map (fun e => e.1)).toFinset.card :=
  ⟨TreapMap.from_iter_get l q, TreapMap.from_iter_size l⟩

end TreapRs
